import Mathlib

/-!
Image pipeline: grayscale conversion followed by a box blur.

A shallow embedding of `src/cpp-addon/processor.cpp` (`ImageProcessor::toGrayscale`,
`ImageProcessor::applyBlur`, `ImageProcessor::process`) and of the validation done by
`ProcessImage` in `src/cpp-addon/binding.cpp`.

Conventions of the embedding:

* a `uint8_t` is a `Byte = Fin 256`; a buffer is a `List Byte`;
* an `int` is an `Int` on which every arithmetic operation of a loop body or of a
  straight-line statement is reduced to the 32-bit two's complement range by `wrap32`;
* the counter of a `for` loop is incremented as an integer. Every loop of the source runs while
  its counter is below, or at most, an `int` bound, so the counter is an `int` in every
  iteration; only the increment that ends `for (kx = -radius; kx <= radius; kx++)` at
  `radius = 2147483647` leaves the range of `int`, which the source leaves undefined: the loop
  is taken to end there, after the `2 * radius + 1` iterations that its bounds describe;
* a buffer access outside the buffer, a division by zero and a loop that exhausts its fuel
  are faults (`Except Fault`);
* a `for` loop is `forLoop`, run with `loopFuel = 2^32` loop-head evaluations, which is more
  than the iterations of any loop of the source whose bounds are `int`s.
-/

/-- Ways in which the C++ code can go wrong at run time. -/
inductive Fault where
  | outOfBounds
  | divByZero
  | nonTermination
  deriving DecidableEq

/-- One `uint8_t`. -/
abbrev Byte := Fin 256

instance instDecidableEqExcept {ε α : Type} [DecidableEq ε] [DecidableEq α] :
    DecidableEq (Except ε α)
  | .ok a, .ok b =>
    if h : a = b then isTrue (by rw [h]) else isFalse (fun h2 => h (Except.ok.inj h2))
  | .error a, .error b =>
    if h : a = b then isTrue (by rw [h]) else isFalse (fun h2 => h (Except.error.inj h2))
  | .ok _, .error _ => isFalse (fun h => by cases h)
  | .error _, .ok _ => isFalse (fun h => by cases h)

/-- Reduction of an integer to the range of a 32-bit signed `int`. -/
def wrap32 (x : Int) : Int := (x + 2147483648) % 4294967296 - 2147483648

/-- The `int` addition `a + b`. -/
def add32 (a b : Int) : Int := wrap32 (a + b)

/-- The `int` multiplication `a * b`. -/
def mul32 (a b : Int) : Int := wrap32 (a * b)

/-- The `int` negation `-a`. -/
def neg32 (a : Int) : Int := wrap32 (-a)

/-- The conversion `static_cast<uint8_t>(x)` of an `int`. -/
def toU8 (x : Int) : Byte := ⟨(x % 256).toNat, by omega⟩

/-- The conversion of an `int` to a 64-bit `size_t`. -/
def toSizeT (x : Int) : Nat := (x % 18446744073709551616).toNat

/-- The `int` division `a / b`, which truncates toward zero and traps on a zero divisor. -/
def div32 (a b : Int) : Except Fault Int :=
  if b = 0 then .error .divByZero else .ok (wrap32 (Int.tdiv a b))

/-- Number of loop-head evaluations granted to every `for` loop. -/
def loopFuel : Nat := 4294967296

/-- The loop `for (int i = start; cond(i); i++) body(i)` acting on a state `s`. The counter is
incremented as an integer: an increment that would leave the range of `int` (undefined in the
source) can only be the last one of a loop bounded by an `int`, and the loop ends after it. -/
def forLoop {σ : Type} (cond : Int → Bool) (body : Int → σ → Except Fault σ) :
    Nat → Int → σ → Except Fault σ
  | 0, _, _ => .error .nonTermination
  | fuel + 1, i, s =>
    if cond i then
      match body i s with
      | .ok s1 => forLoop cond body fuel (i + 1) s1
      | .error e => .error e
    else .ok s

/-- The read `buf[off]`. -/
def readU8 (buf : List Byte) (off : Int) : Except Fault Byte :=
  if 0 ≤ off then
    match buf.get? off.toNat with
    | some v => .ok v
    | none => .error .outOfBounds
  else .error .outOfBounds

/-- The write `buf[off] = v`. -/
def writeU8 (buf : List Byte) (off : Int) (v : Byte) : Except Fault (List Byte) :=
  if 0 ≤ off then
    match buf.get? off.toNat with
    | some _ => .ok (buf.set off.toNat v)
    | none => .error .outOfBounds
  else .error .outOfBounds

/-- The expression `(77 * r + 150 * g + 29 * b) >> 8` on promoted `int` operands. -/
def luminance (r g b : Byte) : Int :=
  (add32 (add32 (mul32 77 r.val) (mul32 150 g.val)) (mul32 29 b.val)) >>> (8 : Nat)

/-- Body of the loop of `toGrayscale` (processor.cpp, lines 34-54). -/
def grayPixel (input : List Byte) (i : Int) (out : List Byte) : Except Fault (List Byte) := do
  let offset := mul32 i 4
  let r ← readU8 input offset
  let g ← readU8 input (add32 offset 1)
  let b ← readU8 input (add32 offset 2)
  let a ← readU8 input (add32 offset 3)
  let gray := toU8 (luminance r g b)
  let out ← writeU8 out offset gray
  let out ← writeU8 out (add32 offset 1) gray
  let out ← writeU8 out (add32 offset 2) gray
  writeU8 out (add32 offset 3) a

/-- Embedding of `ImageProcessor::toGrayscale` (processor.cpp, lines 22-56): the result is the
content of `output` when the function returns. -/
def toGrayscale (input output : List Byte) (width height : Int) : Except Fault (List Byte) :=
  let pixels := mul32 width height
  forLoop (fun i => decide (i < pixels)) (grayPixel input) loopFuel 0 output

/-- The accumulators `r, g, b, a, count` of `applyBlur`. -/
structure Accum where
  r : Int
  g : Int
  b : Int
  a : Int
  count : Int
  deriving DecidableEq

/-- Body of the innermost loop of `applyBlur` (processor.cpp, lines 87-102). -/
def blurSample (input : List Byte) (width height x y ky kx : Int) (acc : Accum) :
    Except Fault Accum :=
  let px := add32 x kx
  let py := add32 y ky
  if px ≥ 0 ∧ px < width ∧ py ≥ 0 ∧ py < height then do
    let offset := mul32 (add32 (mul32 py width) px) 4
    let v0 ← readU8 input offset
    let v1 ← readU8 input (add32 offset 1)
    let v2 ← readU8 input (add32 offset 2)
    let v3 ← readU8 input (add32 offset 3)
    pure { r := add32 acc.r v0.val, g := add32 acc.g v1.val, b := add32 acc.b v2.val,
           a := add32 acc.a v3.val, count := add32 acc.count 1 }
  else pure acc

/-- The loop over `kx` of `applyBlur` (processor.cpp, line 85). -/
def blurKernelRow (input : List Byte) (width height radius x y ky : Int) (acc : Accum) :
    Except Fault Accum :=
  forLoop (fun kx => decide (kx ≤ radius)) (blurSample input width height x y ky)
    loopFuel (neg32 radius) acc

/-- The loop over `ky` of `applyBlur`, started on zeroed accumulators
(processor.cpp, lines 80-84). -/
def blurKernel (input : List Byte) (width height radius x y : Int) : Except Fault Accum :=
  forLoop (fun ky => decide (ky ≤ radius)) (blurKernelRow input width height radius x y)
    loopFuel (neg32 radius) ⟨0, 0, 0, 0, 0⟩

/-- Body of the loop over `x` of `applyBlur` (processor.cpp, lines 79-113). -/
def blurPixel (input : List Byte) (width height radius y x : Int) (out : List Byte) :
    Except Fault (List Byte) := do
  let acc ← blurKernel input width height radius x y
  let offset := mul32 (add32 (mul32 y width) x) 4
  let q0 ← div32 acc.r acc.count
  let out ← writeU8 out offset (toU8 q0)
  let q1 ← div32 acc.g acc.count
  let out ← writeU8 out (add32 offset 1) (toU8 q1)
  let q2 ← div32 acc.b acc.count
  let out ← writeU8 out (add32 offset 2) (toU8 q2)
  let q3 ← div32 acc.a acc.count
  writeU8 out (add32 offset 3) (toU8 q3)

/-- The loop over `x` of `applyBlur` (processor.cpp, line 77). -/
def blurRow (input : List Byte) (width height radius y : Int) (out : List Byte) :
    Except Fault (List Byte) :=
  forLoop (fun x => decide (x < width)) (blurPixel input width height radius y) loopFuel 0 out

/-- Embedding of `ImageProcessor::applyBlur` (processor.cpp, lines 68-116): the result is the
content of `output` when the function returns. -/
def applyBlur (input output : List Byte) (width height radius : Int) :
    Except Fault (List Byte) :=
  forLoop (fun y => decide (y < height)) (blurRow input width height radius) loopFuel 0 output

/-- A freshly allocated block of `n` bytes; `garbage` gives its indeterminate content. -/
def allocBytes (garbage : Nat → Byte) (n : Nat) : List Byte := (List.range n).map garbage

/-- Embedding of `ImageProcessor::process` (processor.cpp, lines 118-124). The temporary buffer
is a fresh block of `bufferSize` bytes of indeterminate content `garbage`; the allocation is
taken to succeed. -/
def process (garbage : Nat → Byte) (input output : List Byte) (width height blurRadius : Int) :
    Except Fault (List Byte) := do
  let bufferSize := toSizeT (mul32 (mul32 width height) 4)
  let temp := allocBytes garbage bufferSize
  let temp ← toGrayscale input temp width height
  applyBlur temp output width height blurRadius

/-! ## Quantities of the specification and of the proofs -/

/-- Component `c` of the accumulators: `0..3` are `r, g, b, a`, anything else is `count`. -/
def Accum.get (acc : Accum) (c : Nat) : Int :=
  match c with
  | 0 => acc.r
  | 1 => acc.g
  | 2 => acc.b
  | 3 => acc.a
  | _ => acc.count

/-- Channel `c` of the pixel `(px, py)` of a row-major RGBA buffer, read as an integer
(`0` when the byte does not exist). -/
def channel (input : List Byte) (width px py : Int) (c : Nat) : Int :=
  match input.get? (((py * width + px) * 4).toNat + c) with
  | some v => (v.val : Int)
  | none => 0

/-- What one kernel offset adds to accumulator `c`: the channel of the neighbour (or `1` for
`count`) when the neighbour `(px, py)` is inside the image, nothing otherwise. -/
def sampleTerm (input : List Byte) (width height px py : Int) (c : Nat) : Int :=
  if 0 ≤ px ∧ px < width ∧ 0 ≤ py ∧ py < height then
    (if c < 4 then channel input width px py c else 1)
  else 0

/-- The window of the specification: the pixels `(px, py)` of the image with
`|px - x| ≤ radius` and `|py - y| ≤ radius`. -/
def windowSet (width height radius x y : Int) : Finset (Int × Int) :=
  (Finset.Ico 0 width ×ˢ Finset.Ico 0 height).filter
    (fun p => |p.1 - x| ≤ radius ∧ |p.2 - y| ≤ radius)

/-- The sum `S` of the specification: channel `c` summed over the window of `(x, y)`. -/
def windowSum (input : List Byte) (width height radius x y : Int) (c : Nat) : Int :=
  ∑ p ∈ windowSet width height radius x y, channel input width p.1 p.2 c

/-- The divisor `N` of the specification: the number of pixels in the window of `(x, y)`. -/
def windowCount (width height radius x y : Int) : Int :=
  ((windowSet width height radius x y).card : Int)

/-- Byte of a buffer at a natural index, as an integer, when it exists. -/
def byteAt (buf : List Byte) (n : Nat) : Option Int :=
  (buf.get? n).map (fun v => (v.val : Int))

/-- The byte that the machine arithmetic of `applyBlur` stores for channel `c` of pixel `(x, y)`:
the window sum reduced to 32 bits, divided by the window count with truncation toward zero,
converted to `uint8_t`. -/
def blurByte (input : List Byte) (width height radius x y : Int) (c : Nat) : Byte :=
  toU8 (wrap32 (Int.tdiv (wrap32 (windowSum input width height radius x y c))
    (windowCount width height radius x y)))

/-- Loop invariant of `applyBlur`: the output buffer has kept its length and the first `m`
pixels, in row-major order, hold their final bytes. -/
def BlurredUpTo (input : List Byte) (width height radius : Int) (m : Nat) (out : List Byte) :
    Prop :=
  out.length = input.length ∧
    ∀ (x y : Int) (p : Nat), 0 ≤ x → x < width → 0 ≤ y → y < height →
      (p : Int) = y * width + x → p < m → ∀ c, c < 4 →
        out.get? (4 * p + c) = some (blurByte input width height radius x y c)

/-- The image of `n` pixels that are all `(R, G, B, A)`, as a row-major RGBA buffer. -/
def solidImage (R G B A : Byte) : Nat → List Byte
  | 0 => []
  | n + 1 => R :: G :: B :: A :: solidImage R G B A n

/-! ## The host entry point -/

/-- What the host runtime hands to `ProcessImage`: the status and result of each N-API call made
before the core runs, and the indeterminate content of the fresh buffers. -/
structure HostCall where
  /-- Status of `napi_get_cb_info`. -/
  cbInfoOk : Bool
  /-- Number of arguments of the JavaScript call. -/
  argc : Nat
  /-- Result of `napi_get_buffer_info` on `args[0]`; `none` when the call fails. -/
  buffer : Option (List Byte)
  /-- Result of `napi_get_value_int32` on `args[1]`; `none` when the call fails. -/
  width : Option Int
  /-- Result of `napi_get_value_int32` on `args[2]`; `none` when the call fails. -/
  height : Option Int
  /-- Result of `napi_get_value_int32` on `args[3]`; `none` when the call fails. -/
  blurRadius : Option Int
  /-- Result of `napi_create_buffer`: `none` when it fails, else the content of the new buffer. -/
  outputGarbage : Option (Nat → Byte)
  /-- Content of the block allocated by `new uint8_t[bufferSize]` in `process`. -/
  tempGarbage : Nat → Byte
  /-- Status of the N-API calls that build the returned object. -/
  resultOk : Bool
  /-- The `error_message` that `napi_get_last_error_info` reports when an N-API call has failed:
  `none` when the runtime gives no error info or no message. -/
  lastError : Option String

/-- Arguments of one call of `ImageProcessor::process`. -/
structure CoreCall where
  input : List Byte
  outputLen : Nat
  width : Int
  height : Int
  blurRadius : Int
  deriving DecidableEq

/-- How a call of `ProcessImage` ends. -/
inductive Outcome where
  | threw (msg : String)
  | crashed (f : Fault)
  | returned (data : List Byte)
  deriving DecidableEq

/-- What a call of `ProcessImage` did: the length of the output buffer it created (if any), the
call of the core it made (if any) and how it ended. -/
structure Trace where
  outputAllocated : Option Nat
  coreCall : Option CoreCall
  outcome : Outcome
  deriving DecidableEq

/-- Message thrown by the `NAPI_CALL` wrapper (binding.cpp, lines 6-16) when an N-API call
fails: the last error message of the runtime, and a fixed text when there is none. -/
def napiFailure (c : HostCall) : String :=
  match c.lastError with
  | some msg => msg
  | none => "N-API call failed"

/-- A call that is rejected before anything is allocated or run. -/
def rejected (msg : String) : Trace := ⟨none, none, .threw msg⟩

/-- Embedding of `ProcessImage` (binding.cpp, lines 19-103). -/
def ProcessImage (c : HostCall) : Trace :=
  if !c.cbInfoOk then rejected (napiFailure c)
  else if c.argc < 3 then
    rejected "Expected at least 3 arguments: processImage(buffer, width, height, [blurRadius])"
  else
    match c.buffer with
    | none => rejected (napiFailure c)
    | some inputData =>
    match c.width with
    | none => rejected (napiFailure c)
    | some width =>
    match c.height with
    | none => rejected (napiFailure c)
    | some height =>
    match (if c.argc ≥ 4 then c.blurRadius else some 5) with
    | none => rejected (napiFailure c)
    | some blurRadius =>
      let inputLength := inputData.length
      let expectedSize := toSizeT (mul32 (mul32 width height) 4)
      if inputLength ≠ expectedSize then
        rejected "Buffer size mismatch: expected width * height * 4 bytes"
      else if width ≤ 0 ∨ height ≤ 0 then
        rejected "Width and height must be positive"
      else if blurRadius < 1 ∨ blurRadius > 50 then
        rejected "Blur radius must be between 1 and 50"
      else
        match c.outputGarbage with
        | none => rejected (napiFailure c)
        | some garbage =>
          let outputData := allocBytes garbage inputLength
          let call : CoreCall := ⟨inputData, inputLength, width, height, blurRadius⟩
          match process c.tempGarbage inputData outputData width height blurRadius with
          | .error f => ⟨some inputLength, some call, .crashed f⟩
          | .ok data =>
            if c.resultOk then ⟨some inputLength, some call, .returned data⟩
            else ⟨some inputLength, some call, .threw (napiFailure c)⟩

/-! ## Contracts stated by the specification -/

/-- What the specification promises of `toGrayscale`: it returns a buffer as long as the input in
which every pixel `(R, G, B, A)` of the input has become `(L, L, L, A)` with
`L = (77 * R + 150 * G + 29 * B) / 256` rounded down. -/
def GrayscaleContract (input output : List Byte) (width height : Int) : Prop :=
  ∃ out, toGrayscale input output width height = .ok out ∧ out.length = input.length ∧
    ∀ (i : Nat) (R G B A : Byte), (i : Int) < width * height →
      input.get? (4 * i) = some R → input.get? (4 * i + 1) = some G →
      input.get? (4 * i + 2) = some B → input.get? (4 * i + 3) = some A →
      ∃ L : Byte, L.val = (77 * R.val + 150 * G.val + 29 * B.val) / 256 ∧
        out.get? (4 * i) = some L ∧ out.get? (4 * i + 1) = some L ∧
        out.get? (4 * i + 2) = some L ∧ out.get? (4 * i + 3) = some A

/-- What the specification promises of the example pixels of `toGrayscale`: it returns a buffer
in which every pixel that is `(255, 0, 0, 128)` in the input is `(76, 76, 76, 128)`, every pixel
that is `(0, 255, 0, 255)` in the input is `(149, 149, 149, 255)`, and every pixel whose input
alpha is 128 has alpha 128, whatever its `R, G, B`. -/
def GrayExamplesContract (input output : List Byte) (width height : Int) : Prop :=
  ∃ out, toGrayscale input output width height = .ok out ∧
    ∀ i : Nat, (i : Int) < width * height →
      ((input.get? (4 * i) = some 255 ∧ input.get? (4 * i + 1) = some 0 ∧
          input.get? (4 * i + 2) = some 0 ∧ input.get? (4 * i + 3) = some 128) →
        out.get? (4 * i) = some 76 ∧ out.get? (4 * i + 1) = some 76 ∧
          out.get? (4 * i + 2) = some 76 ∧ out.get? (4 * i + 3) = some 128) ∧
      ((input.get? (4 * i) = some 0 ∧ input.get? (4 * i + 1) = some 255 ∧
          input.get? (4 * i + 2) = some 0 ∧ input.get? (4 * i + 3) = some 255) →
        out.get? (4 * i) = some 149 ∧ out.get? (4 * i + 1) = some 149 ∧
          out.get? (4 * i + 2) = some 149 ∧ out.get? (4 * i + 3) = some 255) ∧
      (input.get? (4 * i + 3) = some 128 → out.get? (4 * i + 3) = some 128)

/-- What the specification promises of `applyBlur`: it returns a buffer in which channel `c` of
every pixel `(x, y)` is `S / N` truncated toward zero, `S` being the sum of channel `c` over the
window of `(x, y)` and `N` the number of pixels of that window. -/
def BlurContract (input output : List Byte) (width height radius : Int) : Prop :=
  ∃ out, applyBlur input output width height radius = .ok out ∧
    ∀ (x y : Int), 0 ≤ x → x < width → 0 ≤ y → y < height → ∀ c, c < 4 →
      byteAt out ((y * width + x).toNat * 4 + c) =
        some (Int.tdiv (windowSum input width height radius x y c)
          (windowCount width height radius x y))

/-- Every pixel of the buffer is `(R, G, B, A)`. -/
def IsUniform (input : List Byte) (R G B A : Byte) : Prop :=
  ∀ i : Nat, 4 * i + 3 < input.length →
    input.get? (4 * i) = some R ∧ input.get? (4 * i + 1) = some G ∧
    input.get? (4 * i + 2) = some B ∧ input.get? (4 * i + 3) = some A

/-- What the specification promises of `process`: its output is the output of `applyBlur` run on
the complete result of `toGrayscale`, whatever buffer `temp` receives the grayscale image. -/
def PipelineContract (garbage : Nat → Byte) (input output : List Byte)
    (width height blurRadius : Int) : Prop :=
  ∀ temp : List Byte, temp.length = input.length →
    ∃ gray out, toGrayscale input temp width height = .ok gray ∧
      applyBlur gray output width height blurRadius = .ok out ∧
      process garbage input output width height blurRadius = .ok out

/-- The transform `f` (from the prior content of the output buffer to its final content) writes
every byte of an output buffer of `len` bytes: it returns, the result has `len` bytes, and no
byte of the result is left over from the prior content. -/
def WritesAll (f : List Byte → Except Fault (List Byte)) (len : Nat) : Prop :=
  ∀ o1 o2 : List Byte, o1.length = len → o2.length = len →
    ∃ out, f o1 = .ok out ∧ f o2 = .ok out ∧ out.length = len


/-- What the specification promises of the averages of `applyBlur`: for every pixel `(x, y)` and
channel `c` the quotient `q` of the accumulator by `count` lies in `[0, 255]`, so that the
conversion to `uint8_t` stores `q` itself, and `q` lies between any lower bound `lo` and upper
bound `hi` of channel `c` over the window of `(x, y)`, in particular between its minimum and
its maximum. -/
def BlurRangeContract (input output : List Byte) (width height radius : Int) : Prop :=
  ∃ out, applyBlur input output width height radius = .ok out ∧
    ∀ (x y : Int), 0 ≤ x → x < width → 0 ≤ y → y < height → ∀ c, c < 4 →
      ∃ acc, blurKernel input width height radius x y = .ok acc ∧
        0 ≤ Int.tdiv (acc.get c) acc.count ∧ Int.tdiv (acc.get c) acc.count ≤ 255 ∧
        byteAt out ((y * width + x).toNat * 4 + c) = some (Int.tdiv (acc.get c) acc.count) ∧
        ∀ lo hi : Int,
          (∀ p ∈ windowSet width height radius x y,
            lo ≤ channel input width p.1 p.2 c ∧ channel input width p.1 p.2 c ≤ hi) →
          lo ≤ Int.tdiv (acc.get c) acc.count ∧ Int.tdiv (acc.get c) acc.count ≤ hi

/-! ## Machine arithmetic -/

theorem wrap32_eq_self {x : Int} (h1 : -2147483648 ≤ x) (h2 : x < 2147483648) : wrap32 x = x := by
  unfold wrap32; omega

theorem wrap32_add_wrap32 (a b : Int) : wrap32 (wrap32 a + b) = wrap32 (a + b) := by
  unfold wrap32; omega

theorem wrap32_range (x : Int) : -2147483648 ≤ wrap32 x ∧ wrap32 x < 2147483648 := by
  unfold wrap32; omega

theorem add32_eq {a b : Int} (h1 : -2147483648 ≤ a + b) (h2 : a + b < 2147483648) :
    add32 a b = a + b := wrap32_eq_self h1 h2

theorem mul32_eq {a b : Int} (h1 : -2147483648 ≤ a * b) (h2 : a * b < 2147483648) :
    mul32 a b = a * b := wrap32_eq_self h1 h2

/-- The byte offsets `i * 4 + c` of pixel `i` are computed without overflow when they fit. -/
theorem pixel_offset (i : Int) (c : Int) (hi : 0 ≤ i) (hc0 : 0 ≤ c) (hc : c ≤ 3)
    (h : i * 4 + 3 < 2147483648) : add32 (mul32 i 4) c = i * 4 + c := by
  rw [mul32_eq (by omega) (by omega), add32_eq (by omega) (by omega)]

theorem pixel_offset0 (i : Int) (hi : 0 ≤ i) (h : i * 4 + 3 < 2147483648) :
    mul32 i 4 = i * 4 := mul32_eq (by omega) (by omega)

/-! ## Buffer accesses -/

theorem readU8_ok (buf : List Byte) (off : Int) (n : Nat) (v : Byte) (hoff : off = (n : Int))
    (h : buf.get? n = some v) : readU8 buf off = .ok v := by
  subst hoff
  simp only [readU8, Int.toNat_ofNat, h]
  simp

theorem writeU8_ok (buf : List Byte) (off : Int) (n : Nat) (v : Byte) (hoff : off = (n : Int))
    (h : n < buf.length) : writeU8 buf off v = .ok (buf.set n v) := by
  subst hoff
  obtain ⟨w, hw⟩ : ∃ w, buf.get? n = some w := ⟨buf.get ⟨n, h⟩, List.get?_eq_get h⟩
  simp only [writeU8, Int.toNat_ofNat, hw]
  simp

theorem getq_some_of_lt (buf : List Byte) (n : Nat) (h : n < buf.length) :
    ∃ v, buf.get? n = some v := ⟨buf.get ⟨n, h⟩, List.get?_eq_get h⟩

/-! ## Counting loops -/

theorem forLoop_count_aux {σ : Type} (cond : Int → Bool) (body : Int → σ → Except Fault σ)
    (P : Nat → σ → Prop) (lo : Int) (n : Nat)
    (hcond : ∀ k : Nat, k < n → cond (lo + k) = true)
    (hend : cond (lo + n) = false)
    (hstep : ∀ (k : Nat) (s : σ), k < n → P k s → ∃ s1, body (lo + k) s = .ok s1 ∧ P (k + 1) s1) :
    ∀ (m j : Nat), j + m = n → ∀ (fuel : Nat), m < fuel → ∀ s, P j s →
      ∃ s1, forLoop cond body fuel (lo + j) s = .ok s1 ∧ P n s1 := by
  intro m
  induction m with
  | zero =>
    intro j hj fuel hfuel s hP
    obtain ⟨f, rfl⟩ : ∃ f, fuel = f + 1 := ⟨fuel - 1, by omega⟩
    have : j = n := by omega
    subst this
    exact ⟨s, by simp [forLoop, hend], hP⟩
  | succ m ih =>
    intro j hj fuel hfuel s hP
    obtain ⟨f, rfl⟩ : ∃ f, fuel = f + 1 := ⟨fuel - 1, by omega⟩
    obtain ⟨s1, hb, hP1⟩ := hstep j s (by omega) hP
    have hnext : lo + (j : Int) + 1 = lo + ((j + 1 : Nat) : Int) := by
      push_cast; ring
    obtain ⟨s2, h2, hP2⟩ := ih (j + 1) (by omega) f (by omega) s1 hP1
    refine ⟨s2, ?_, hP2⟩
    simp only [forLoop, hcond j (by omega), hb, if_true, hnext]
    exact h2

/-- Hoare rule for a loop `for (i = lo; cond(i); i++)` that makes exactly `n` iterations, the
counter being an `int` in each of them: an invariant indexed by the number of completed
iterations is carried to the exit, and the loop ends without a fault. -/
theorem forLoop_count {σ : Type} (cond : Int → Bool) (body : Int → σ → Except Fault σ)
    (P : Nat → σ → Prop) (lo : Int) (n : Nat)
    (hlo : -2147483647 ≤ lo) (hhi : lo + n ≤ 2147483648)
    (hcond : ∀ k : Nat, k < n → cond (lo + k) = true)
    (hend : cond (lo + n) = false)
    (hstep : ∀ (k : Nat) (s : σ), k < n → P k s → ∃ s1, body (lo + k) s = .ok s1 ∧ P (k + 1) s1)
    (s : σ) (h0 : P 0 s) :
    ∃ s1, forLoop cond body loopFuel lo s = .ok s1 ∧ P n s1 := by
  have hn : n < loopFuel := by unfold loopFuel; omega
  have := forLoop_count_aux cond body P lo n hcond hend hstep n 0 (by omega) loopFuel hn s h0
  simpa using this

/-- Fuel is only a bound: a loop that ends, with a result or with a fault of its body, ends in
the same way with any larger amount of fuel. -/
theorem forLoop_fuel_mono {σ : Type} (cond : Int → Bool) (body : Int → σ → Except Fault σ) :
    ∀ (fuel : Nat) (i : Int) (s : σ) (r : Except Fault σ),
      forLoop cond body fuel i s = r → r ≠ .error .nonTermination →
      ∀ k : Nat, forLoop cond body (fuel + k) i s = r := by
  intro fuel
  induction fuel with
  | zero =>
    intro i s r h hr k
    exact absurd h.symm hr
  | succ f ih =>
    intro i s r h hr k
    have e : f + 1 + k = (f + k) + 1 := by omega
    rw [e]
    simp only [forLoop] at h ⊢
    by_cases hc : cond i = true
    · rw [if_pos hc] at h ⊢
      cases hb : body i s with
      | error e1 =>
        rw [hb] at h
        exact h
      | ok s1 =>
        rw [hb] at h
        exact ih (i + 1) s1 r h hr k
    · rw [if_neg hc] at h ⊢
      exact h

/-! ## Grayscale -/

theorem luminance_eq (r g b : Byte) :
    luminance r g b = (77 * (r.val : Int) + 150 * g.val + 29 * b.val) / 256 := by
  have hr := r.isLt
  have hg := g.isLt
  have hb := b.isLt
  unfold luminance
  have e1 : mul32 77 (r.val : Int) = 77 * r.val := mul32_eq (by omega) (by omega)
  have e2 : mul32 150 (g.val : Int) = 150 * g.val := mul32_eq (by omega) (by omega)
  have e3 : mul32 29 (b.val : Int) = 29 * b.val := mul32_eq (by omega) (by omega)
  rw [e1, e2, e3, add32_eq (a := 77 * (r.val : Int)) (by omega) (by omega),
    add32_eq (by omega) (by omega), Int.shiftRight_eq_div_pow]
  norm_num

theorem toU8_luminance_val (r g b : Byte) :
    (toU8 (luminance r g b)).val = (77 * r.val + 150 * g.val + 29 * b.val) / 256 := by
  have hr := r.isLt
  have hg := g.isLt
  have hb := b.isLt
  rw [luminance_eq]
  simp only [toU8]
  have h : ((77 * (r.val : Int) + 150 * g.val + 29 * b.val) / 256) =
      (((77 * r.val + 150 * g.val + 29 * b.val) / 256 : Nat) : Int) := by
    push_cast; rfl
  rw [h]
  omega


theorem ok_bind {α β : Type} (a : α) (f : α → Except Fault β) : (Except.ok a >>= f) = f a := rfl

theorem grayPixel_spec (input out : List Byte) (i : Nat) (R G B A : Byte)
    (hR : input.get? (4 * i) = some R) (hG : input.get? (4 * i + 1) = some G)
    (hB : input.get? (4 * i + 2) = some B) (hA : input.get? (4 * i + 3) = some A)
    (hout : 4 * i + 3 < out.length) (hfit : 4 * i + 3 < 2147483648) :
    grayPixel input (i : Int) out =
      .ok ((((out.set (4 * i) (toU8 (luminance R G B))).set (4 * i + 1)
        (toU8 (luminance R G B))).set (4 * i + 2) (toU8 (luminance R G B))).set (4 * i + 3) A) := by
  have h0 : mul32 (i : Int) 4 = ((4 * i : Nat) : Int) := by
    rw [pixel_offset0 (i : Int) (by omega) (by omega)]; push_cast; ring
  have h1 : add32 (mul32 (i : Int) 4) 1 = ((4 * i + 1 : Nat) : Int) := by
    rw [pixel_offset (i : Int) 1 (by omega) (by omega) (by omega) (by omega)]; push_cast; ring
  have h2 : add32 (mul32 (i : Int) 4) 2 = ((4 * i + 2 : Nat) : Int) := by
    rw [pixel_offset (i : Int) 2 (by omega) (by omega) (by omega) (by omega)]; push_cast; ring
  have h3 : add32 (mul32 (i : Int) 4) 3 = ((4 * i + 3 : Nat) : Int) := by
    rw [pixel_offset (i : Int) 3 (by omega) (by omega) (by omega) (by omega)]; push_cast; ring
  have r0 := readU8_ok input _ _ _ h0 hR
  have r1 := readU8_ok input _ _ _ h1 hG
  have r2 := readU8_ok input _ _ _ h2 hB
  have r3 := readU8_ok input _ _ _ h3 hA
  have w0 := writeU8_ok out _ _ (toU8 (luminance R G B)) h0 (by omega)
  have w1 := writeU8_ok (out.set (4 * i) (toU8 (luminance R G B))) _ _ (toU8 (luminance R G B)) h1
    (by rw [List.length_set]; omega)
  have w2 := writeU8_ok ((out.set (4 * i) (toU8 (luminance R G B))).set (4 * i + 1)
    (toU8 (luminance R G B))) _ _ (toU8 (luminance R G B)) h2
    (by rw [List.length_set, List.length_set]; omega)
  have w3 := writeU8_ok (((out.set (4 * i) (toU8 (luminance R G B))).set (4 * i + 1)
    (toU8 (luminance R G B))).set (4 * i + 2) (toU8 (luminance R G B))) _ _ A h3
    (by rw [List.length_set, List.length_set, List.length_set]; omega)
  unfold grayPixel
  dsimp only
  rw [r0, ok_bind, r1, ok_bind, r2, ok_bind, r3, ok_bind]
  rw [w0, ok_bind, w1, ok_bind, w2, ok_bind, w3]

/-- Reading back the four bytes written for pixel `p`. -/
theorem getq_set4 (out : List Byte) (p : Nat) (a b c d : Byte) (h : 4 * p + 3 < out.length)
    (j : Nat) :
    ((((out.set (4 * p) a).set (4 * p + 1) b).set (4 * p + 2) c).set (4 * p + 3) d).get? j =
      if j = 4 * p then some a else if j = 4 * p + 1 then some b
      else if j = 4 * p + 2 then some c else if j = 4 * p + 3 then some d else out.get? j := by
  simp only [List.get?_eq_getElem?, List.getElem?_set, List.length_set]
  split_ifs <;> first | rfl | omega

theorem length_set4 (out : List Byte) (p : Nat) (a b c d : Byte) :
    ((((out.set (4 * p) a).set (4 * p + 1) b).set (4 * p + 2) c).set (4 * p + 3) d).length =
      out.length := by
  simp only [List.length_set]

/-- The grayscale pixel computed from the input bytes of pixel `i`, as the four bytes that
`toGrayscale` stores for it. -/
theorem toGrayscale_spec (input output : List Byte) (width height : Int)
    (hw : 0 < width) (hh : 0 < height) (hfit : width * height * 4 < 2147483648)
    (hin : (input.length : Int) = width * height * 4) (hout : output.length = input.length) :
    ∃ out, toGrayscale input output width height = .ok out ∧ out.length = input.length ∧
      ∀ (i : Nat) (R G B A : Byte), (i : Int) < width * height →
        input.get? (4 * i) = some R → input.get? (4 * i + 1) = some G →
        input.get? (4 * i + 2) = some B → input.get? (4 * i + 3) = some A →
        out.get? (4 * i) = some (toU8 (luminance R G B)) ∧
        out.get? (4 * i + 1) = some (toU8 (luminance R G B)) ∧
        out.get? (4 * i + 2) = some (toU8 (luminance R G B)) ∧
        out.get? (4 * i + 3) = some A := by
  have hpos : 0 < width * height := Int.mul_pos hw hh
  obtain ⟨n, hn⟩ : ∃ n : Nat, (n : Int) = width * height := ⟨(width * height).toNat, by omega⟩
  have hpix : mul32 width height = (n : Int) := by
    rw [hn]; exact mul32_eq (by omega) (by omega)
  have key := forLoop_count (fun i => decide (i < (n : Int))) (grayPixel input)
    (fun k out => out.length = input.length ∧
      ∀ (i : Nat) (R G B A : Byte), i < k →
        input.get? (4 * i) = some R → input.get? (4 * i + 1) = some G →
        input.get? (4 * i + 2) = some B → input.get? (4 * i + 3) = some A →
        out.get? (4 * i) = some (toU8 (luminance R G B)) ∧
        out.get? (4 * i + 1) = some (toU8 (luminance R G B)) ∧
        out.get? (4 * i + 2) = some (toU8 (luminance R G B)) ∧
        out.get? (4 * i + 3) = some A)
    0 n (by omega) (by omega)
    (by intro k hk; simp only [decide_eq_true_eq]; omega)
    (by simp)
    (by
      intro k s hk ⟨hlen, hP⟩
      obtain ⟨R, hR⟩ := getq_some_of_lt input (4 * k) (by omega)
      obtain ⟨G, hG⟩ := getq_some_of_lt input (4 * k + 1) (by omega)
      obtain ⟨B, hB⟩ := getq_some_of_lt input (4 * k + 2) (by omega)
      obtain ⟨A, hA⟩ := getq_some_of_lt input (4 * k + 3) (by omega)
      have hgp := grayPixel_spec input s k R G B A hR hG hB hA (by omega) (by omega)
      rw [← zero_add (k : Int)] at hgp
      refine ⟨_, hgp, ?_, ?_⟩
      · rw [length_set4]; exact hlen
      · intro i R1 G1 B1 A1 hi hR1 hG1 hB1 hA1
        have hs : 4 * k + 3 < s.length := by omega
        rw [getq_set4 _ _ _ _ _ _ hs, getq_set4 _ _ _ _ _ _ hs, getq_set4 _ _ _ _ _ _ hs,
          getq_set4 _ _ _ _ _ _ hs]
        by_cases hik : i = k
        · subst hik
          rw [hR] at hR1; rw [hG] at hG1; rw [hB] at hB1; rw [hA] at hA1
          cases hR1; cases hG1; cases hB1; cases hA1
          refine ⟨by simp, ?_, ?_, ?_⟩
          · rw [if_neg (by omega), if_pos rfl]
          · rw [if_neg (by omega), if_neg (by omega), if_pos rfl]
          · rw [if_neg (by omega), if_neg (by omega), if_neg (by omega), if_pos rfl]
        · have hlt : i < k := by omega
          obtain ⟨q0, q1, q2, q3⟩ := hP i R1 G1 B1 A1 hlt hR1 hG1 hB1 hA1
          refine ⟨?_, ?_, ?_, ?_⟩
          · rw [if_neg (by omega), if_neg (by omega), if_neg (by omega), if_neg (by omega)]
            exact q0
          · rw [if_neg (by omega), if_neg (by omega), if_neg (by omega), if_neg (by omega)]
            exact q1
          · rw [if_neg (by omega), if_neg (by omega), if_neg (by omega), if_neg (by omega)]
            exact q2
          · rw [if_neg (by omega), if_neg (by omega), if_neg (by omega), if_neg (by omega)]
            exact q3)
    output ⟨hout, by intro i _ _ _ _ hi; omega⟩
  obtain ⟨out, hrun, hlen, hP⟩ := key
  refine ⟨out, ?_, hlen, ?_⟩
  · unfold toGrayscale
    rw [hpix]
    exact hrun
  · intro i R G B A hi
    exact hP i R G B A (by omega)

/-! ## Box blur: the accumulation over the kernel -/

/-- Row-major pixel indices stay below the number of pixels. -/
theorem pixel_index_bounds (width height px py : Int) (hx0 : 0 ≤ px) (hx : px < width)
    (hy0 : 0 ≤ py) (hy : py < height) :
    0 ≤ py * width ∧ 0 ≤ py * width + px ∧ py * width + px < width * height := by
  have h1 : 0 ≤ py * width := mul_nonneg hy0 (by omega)
  have h2 : 0 ≤ (height - 1 - py) * width := mul_nonneg (by omega) (by omega)
  refine ⟨h1, by omega, ?_⟩
  nlinarith

theorem channel_eq (input : List Byte) (width px py : Int) (c : Nat) (n : Nat) (v : Byte)
    (hn : (py * width + px) * 4 = (n : Int)) (hv : input.get? (n + c) = some v) :
    channel input width px py c = (v.val : Int) := by
  unfold channel
  rw [hn, Int.toNat_ofNat, hv]

/-- One kernel offset: every accumulator grows by its `sampleTerm`, modulo `2^32`. -/
theorem blurSample_spec (input : List Byte) (width height x y ky kx : Int) (acc : Accum)
    (T : Nat → Int)
    (hfit : width * height * 4 < 2147483648)
    (hin : (input.length : Int) = width * height * 4)
    (hx1 : -2147483648 ≤ x + kx) (hx2 : x + kx < 2147483648)
    (hy1 : -2147483648 ≤ y + ky) (hy2 : y + ky < 2147483648)
    (hT : ∀ c, acc.get c = wrap32 (T c)) :
    ∃ acc1, blurSample input width height x y ky kx acc = .ok acc1 ∧
      ∀ c, acc1.get c = wrap32 (T c + sampleTerm input width height (x + kx) (y + ky) c) := by
  unfold blurSample
  rw [add32_eq hx1 hx2, add32_eq hy1 hy2]
  dsimp only
  by_cases hinb : x + kx ≥ 0 ∧ x + kx < width ∧ y + ky ≥ 0 ∧ y + ky < height
  · rw [if_pos hinb]
    obtain ⟨hpx0, hpx, hpy0, hpy⟩ := hinb
    obtain ⟨b1, b2, b3⟩ := pixel_index_bounds width height (x + kx) (y + ky) hpx0 hpx hpy0 hpy
    obtain ⟨n, hn⟩ : ∃ n : Nat, (n : Int) = ((y + ky) * width + (x + kx)) * 4 :=
      ⟨(((y + ky) * width + (x + kx)) * 4).toNat, by omega⟩
    have e1 : mul32 (y + ky) width = (y + ky) * width := mul32_eq (by omega) (by omega)
    have e2 : add32 ((y + ky) * width) (x + kx) = (y + ky) * width + (x + kx) :=
      add32_eq (by omega) (by omega)
    have o0 : mul32 ((y + ky) * width + (x + kx)) 4 = ((n + 0 : Nat) : Int) := by
      rw [pixel_offset0 _ (by omega) (by omega)]; omega
    have o1 : add32 (mul32 ((y + ky) * width + (x + kx)) 4) 1 = ((n + 1 : Nat) : Int) := by
      rw [pixel_offset _ 1 (by omega) (by omega) (by omega) (by omega)]; omega
    have o2 : add32 (mul32 ((y + ky) * width + (x + kx)) 4) 2 = ((n + 2 : Nat) : Int) := by
      rw [pixel_offset _ 2 (by omega) (by omega) (by omega) (by omega)]; omega
    have o3 : add32 (mul32 ((y + ky) * width + (x + kx)) 4) 3 = ((n + 3 : Nat) : Int) := by
      rw [pixel_offset _ 3 (by omega) (by omega) (by omega) (by omega)]; omega
    obtain ⟨v0, hv0⟩ := getq_some_of_lt input (n + 0) (by omega)
    obtain ⟨v1, hv1⟩ := getq_some_of_lt input (n + 1) (by omega)
    obtain ⟨v2, hv2⟩ := getq_some_of_lt input (n + 2) (by omega)
    obtain ⟨v3, hv3⟩ := getq_some_of_lt input (n + 3) (by omega)
    rw [e1, e2, readU8_ok input _ _ _ o0 hv0, ok_bind, readU8_ok input _ _ _ o1 hv1, ok_bind,
      readU8_ok input _ _ _ o2 hv2, ok_bind, readU8_ok input _ _ _ o3 hv3, ok_bind]
    refine ⟨_, rfl, ?_⟩
    have hterm : ∀ c, sampleTerm input width height (x + kx) (y + ky) c =
        if c < 4 then channel input width (x + kx) (y + ky) c else 1 := by
      intro c
      unfold sampleTerm
      rw [if_pos ⟨hpx0, hpx, hpy0, hpy⟩]
    intro c
    rw [hterm, ← wrap32_add_wrap32, ← hT c]
    match c with
    | 0 => rw [if_pos (by omega), channel_eq input width _ _ 0 n v0 hn.symm hv0]; rfl
    | 1 => rw [if_pos (by omega), channel_eq input width _ _ 1 n v1 hn.symm hv1]; rfl
    | 2 => rw [if_pos (by omega), channel_eq input width _ _ 2 n v2 hn.symm hv2]; rfl
    | 3 => rw [if_pos (by omega), channel_eq input width _ _ 3 n v3 hn.symm hv3]; rfl
    | k + 4 => rw [if_neg (by omega)]; rfl
  · rw [if_neg hinb]
    refine ⟨acc, rfl, ?_⟩
    intro c
    have hterm : sampleTerm input width height (x + kx) (y + ky) c = 0 := by
      unfold sampleTerm
      rw [if_neg]
      intro hc
      exact hinb ⟨hc.1, hc.2.1, hc.2.2.1, hc.2.2.2⟩
    rw [hterm, add_zero]
    exact hT c

/-- The loop over `kx`: a whole kernel row is added to the accumulators. -/
theorem blurKernelRow_spec (input : List Byte) (width height radius x y ky : Int) (acc : Accum)
    (T : Nat → Int)
    (hfit : width * height * 4 < 2147483648)
    (hin : (input.length : Int) = width * height * 4)
    (hr0 : 0 ≤ radius) (hr : radius ≤ 2147483647)
    (hx0 : 0 ≤ x) (hx : x < width) (hwr : width + radius ≤ 2147483648)
    (hy1 : -2147483648 ≤ y + ky) (hy2 : y + ky < 2147483648)
    (hT : ∀ c, acc.get c = wrap32 (T c)) :
    ∃ acc1, blurKernelRow input width height radius x y ky acc = .ok acc1 ∧
      ∀ c, acc1.get c = wrap32 (T c + ∑ j ∈ Finset.range (2 * radius + 1).toNat,
        sampleTerm input width height (x + (-radius + (j : Int))) (y + ky) c) := by
  have hneg : neg32 radius = -radius := wrap32_eq_self (by omega) (by omega)
  have key := forLoop_count (fun kx => decide (kx ≤ radius)) (blurSample input width height x y ky)
    (fun k a => ∀ c, a.get c = wrap32 (T c + ∑ j ∈ Finset.range k,
        sampleTerm input width height (x + (-radius + (j : Int))) (y + ky) c))
    (-radius) (2 * radius + 1).toNat (by omega) (by omega)
    (by intro k hk; simp only [decide_eq_true_eq]; omega)
    (by simp only [decide_eq_false_iff_not]; omega)
    (by
      intro k s hk hP
      obtain ⟨acc1, h1, h2⟩ := blurSample_spec input width height x y ky (-radius + (k : Int)) s
        (fun c => T c + ∑ j ∈ Finset.range k,
          sampleTerm input width height (x + (-radius + (j : Int))) (y + ky) c)
        hfit hin (by omega) (by omega) hy1 hy2 hP
      refine ⟨acc1, h1, ?_⟩
      intro c
      rw [h2 c, Finset.sum_range_succ, add_assoc])
    acc (by intro c; simpa using hT c)
  obtain ⟨acc1, h1, h2⟩ := key
  exact ⟨acc1, by unfold blurKernelRow; rw [hneg]; exact h1, h2⟩

/-- The loop over `ky`: the accumulators hold, modulo `2^32`, the sums over the whole kernel. -/
theorem blurKernel_spec (input : List Byte) (width height radius x y : Int)
    (hfit : width * height * 4 < 2147483648)
    (hin : (input.length : Int) = width * height * 4)
    (hr0 : 0 ≤ radius) (hr : radius ≤ 2147483647)
    (hx0 : 0 ≤ x) (hx : x < width) (hwr : width + radius ≤ 2147483648)
    (hy0 : 0 ≤ y) (hy : y < height) (hhr : height + radius ≤ 2147483648) :
    ∃ acc1, blurKernel input width height radius x y = .ok acc1 ∧
      ∀ c, acc1.get c = wrap32 (∑ i ∈ Finset.range (2 * radius + 1).toNat,
        ∑ j ∈ Finset.range (2 * radius + 1).toNat,
          sampleTerm input width height (x + (-radius + (j : Int))) (y + (-radius + (i : Int))) c) := by
  have hneg : neg32 radius = -radius := wrap32_eq_self (by omega) (by omega)
  have key := forLoop_count (fun ky => decide (ky ≤ radius))
    (blurKernelRow input width height radius x y)
    (fun k a => ∀ c, a.get c = wrap32 (∑ i ∈ Finset.range k,
        ∑ j ∈ Finset.range (2 * radius + 1).toNat,
          sampleTerm input width height (x + (-radius + (j : Int))) (y + (-radius + (i : Int))) c))
    (-radius) (2 * radius + 1).toNat (by omega) (by omega)
    (by intro k hk; simp only [decide_eq_true_eq]; omega)
    (by simp only [decide_eq_false_iff_not]; omega)
    (by
      intro k s hk hP
      obtain ⟨acc1, h1, h2⟩ := blurKernelRow_spec input width height radius x y
        (-radius + (k : Int)) s
        (fun c => ∑ i ∈ Finset.range k, ∑ j ∈ Finset.range (2 * radius + 1).toNat,
          sampleTerm input width height (x + (-radius + (j : Int))) (y + (-radius + (i : Int))) c)
        hfit hin hr0 hr hx0 hx hwr (by omega) (by omega) hP
      refine ⟨acc1, h1, ?_⟩
      intro c
      rw [h2 c, Finset.sum_range_succ])
    ⟨0, 0, 0, 0, 0⟩
    (by
      intro c
      rw [Finset.sum_range_zero]
      match c with
      | 0 => rfl
      | 1 => rfl
      | 2 => rfl
      | 3 => rfl
      | k + 4 => rfl)
  obtain ⟨acc1, h1, h2⟩ := key
  exact ⟨acc1, by unfold blurKernel; rw [hneg]; exact h1, h2⟩

/-! ## Box blur: the kernel sums are the window sums of the specification -/

theorem mem_windowSet (width height radius x y : Int) (p : Int × Int) :
    p ∈ windowSet width height radius x y ↔
      (0 ≤ p.1 ∧ p.1 < width) ∧ (0 ≤ p.2 ∧ p.2 < height) ∧
      (x - radius ≤ p.1 ∧ p.1 ≤ x + radius) ∧ (y - radius ≤ p.2 ∧ p.2 ≤ y + radius) := by
  unfold windowSet
  simp only [Finset.mem_filter, Finset.mem_product, Finset.mem_Ico, abs_le]
  constructor
  · rintro ⟨⟨h1, h2⟩, h3, h4⟩
    exact ⟨h1, h2, ⟨by omega, by omega⟩, ⟨by omega, by omega⟩⟩
  · rintro ⟨h1, h2, h3, h4⟩
    exact ⟨⟨h1, h2⟩, ⟨by omega, by omega⟩, ⟨by omega, by omega⟩⟩

/-- Summing over the kernel offsets and skipping the neighbours that fall outside the image
is summing over the pixels of the window. -/
theorem kernel_sum_eq_window (width height radius x y : Int) (hr0 : 0 ≤ radius)
    (F : Int → Int → Int) :
    (∑ i ∈ Finset.range (2 * radius + 1).toNat, ∑ j ∈ Finset.range (2 * radius + 1).toNat,
      (if 0 ≤ x + (-radius + (j : Int)) ∧ x + (-radius + (j : Int)) < width ∧
          0 ≤ y + (-radius + (i : Int)) ∧ y + (-radius + (i : Int)) < height
        then F (x + (-radius + (j : Int))) (y + (-radius + (i : Int))) else 0)) =
      ∑ p ∈ windowSet width height radius x y, F p.1 p.2 := by
  rw [← Finset.sum_product']
  rw [← Finset.sum_filter]
  refine Finset.sum_nbij'
    (fun q => (x + (-radius + (q.2 : Int)), y + (-radius + (q.1 : Int))))
    (fun p => ((p.2 - y + radius).toNat, (p.1 - x + radius).toNat)) ?_ ?_ ?_ ?_ ?_
  · intro q hq
    simp only [Finset.mem_filter, Finset.mem_product, Finset.mem_range] at hq
    rw [mem_windowSet]
    dsimp only
    omega
  · intro p hp
    rw [mem_windowSet] at hp
    simp only [Finset.mem_filter, Finset.mem_product, Finset.mem_range]
    omega
  · intro q hq
    simp only [Finset.mem_filter, Finset.mem_product, Finset.mem_range] at hq
    apply Prod.ext <;> dsimp only <;> omega
  · intro p hp
    rw [mem_windowSet] at hp
    apply Prod.ext <;> dsimp only <;> omega
  · intro q _
    rfl

theorem kernel_sum_channel (input : List Byte) (width height radius x y : Int) (hr0 : 0 ≤ radius)
    (c : Nat) (hc : c < 4) :
    (∑ i ∈ Finset.range (2 * radius + 1).toNat, ∑ j ∈ Finset.range (2 * radius + 1).toNat,
      sampleTerm input width height (x + (-radius + (j : Int))) (y + (-radius + (i : Int))) c) =
      windowSum input width height radius x y c := by
  unfold windowSum
  rw [← kernel_sum_eq_window width height radius x y hr0
    (fun px py => channel input width px py c)]
  simp only [sampleTerm, if_pos hc]

theorem kernel_sum_count (input : List Byte) (width height radius x y : Int) (hr0 : 0 ≤ radius)
    (c : Nat) (hc : ¬ c < 4) :
    (∑ i ∈ Finset.range (2 * radius + 1).toNat, ∑ j ∈ Finset.range (2 * radius + 1).toNat,
      sampleTerm input width height (x + (-radius + (j : Int))) (y + (-radius + (i : Int))) c) =
      windowCount width height radius x y := by
  unfold windowCount
  rw [Finset.card_eq_sum_ones, Nat.cast_sum, Nat.cast_one,
    ← kernel_sum_eq_window width height radius x y hr0 (fun _ _ => 1)]
  simp only [sampleTerm, if_neg hc]

/-- The centre pixel belongs to its own window. -/
theorem self_mem_windowSet (width height radius x y : Int) (hr0 : 0 ≤ radius)
    (hx0 : 0 ≤ x) (hx : x < width) (hy0 : 0 ≤ y) (hy : y < height) :
    (x, y) ∈ windowSet width height radius x y := by
  rw [mem_windowSet]
  dsimp only
  omega

theorem windowCount_pos (width height radius x y : Int) (hr0 : 0 ≤ radius)
    (hx0 : 0 ≤ x) (hx : x < width) (hy0 : 0 ≤ y) (hy : y < height) :
    1 ≤ windowCount width height radius x y := by
  unfold windowCount
  have := Finset.card_pos.2 ⟨(x, y), self_mem_windowSet width height radius x y hr0 hx0 hx hy0 hy⟩
  omega

theorem windowCount_le (width height radius x y : Int) (hw : 0 ≤ width) (hh : 0 ≤ height) :
    windowCount width height radius x y ≤ width * height := by
  unfold windowCount windowSet
  have h1 := Finset.card_filter_le (Finset.Ico (0 : Int) width ×ˢ Finset.Ico (0 : Int) height)
    (fun p => |p.1 - x| ≤ radius ∧ |p.2 - y| ≤ radius)
  rw [Finset.card_product, Int.card_Ico, Int.card_Ico] at h1
  have h2 : ((((width - 0).toNat * (height - 0).toNat : Nat)) : Int) = width * height := by
    push_cast
    rw [sub_zero, sub_zero, Int.toNat_of_nonneg hw, Int.toNat_of_nonneg hh]
  rw [← h2]
  exact_mod_cast h1

/-! ## Box blur: one output pixel, one row, the whole image -/

theorem div32_ok (a b : Int) (hb : b ≠ 0) : div32 a b = .ok (wrap32 (Int.tdiv a b)) := by
  unfold div32
  rw [if_neg hb]

/-- One output pixel: the kernel is accumulated without a fault, the divisor is at least one,
and the four bytes of the pixel are written. -/
theorem blurPixel_spec (input out : List Byte) (width height radius x y : Int) (p : Nat)
    (hfit : width * height * 4 < 2147483648)
    (hin : (input.length : Int) = width * height * 4)
    (hout : out.length = input.length)
    (hr0 : 0 ≤ radius) (hr : radius ≤ 2147483647)
    (hx0 : 0 ≤ x) (hx : x < width) (hwr : width + radius ≤ 2147483648)
    (hy0 : 0 ≤ y) (hy : y < height) (hhr : height + radius ≤ 2147483648)
    (hp : (p : Int) = y * width + x) :
    blurPixel input width height radius y x out =
      .ok ((((out.set (4 * p) (blurByte input width height radius x y 0)).set (4 * p + 1)
        (blurByte input width height radius x y 1)).set (4 * p + 2)
        (blurByte input width height radius x y 2)).set (4 * p + 3)
        (blurByte input width height radius x y 3)) := by
  obtain ⟨acc, hacc, hget⟩ := blurKernel_spec input width height radius x y hfit hin hr0 hr
    hx0 hx hwr hy0 hy hhr
  obtain ⟨b1, b2, b3⟩ := pixel_index_bounds width height x y hx0 hx hy0 hy
  have hN1 := windowCount_pos width height radius x y hr0 hx0 hx hy0 hy
  have hN2 := windowCount_le width height radius x y (by omega) (by omega)
  have hcount : acc.count = windowCount width height radius x y := by
    have := hget 4
    rw [kernel_sum_count input width height radius x y hr0 4 (by omega)] at this
    rw [wrap32_eq_self (by omega) (by omega)] at this
    exact this
  have h0 : acc.r = wrap32 (windowSum input width height radius x y 0) := by
    have := hget 0
    rw [kernel_sum_channel input width height radius x y hr0 0 (by omega)] at this
    exact this
  have h1 : acc.g = wrap32 (windowSum input width height radius x y 1) := by
    have := hget 1
    rw [kernel_sum_channel input width height radius x y hr0 1 (by omega)] at this
    exact this
  have h2 : acc.b = wrap32 (windowSum input width height radius x y 2) := by
    have := hget 2
    rw [kernel_sum_channel input width height radius x y hr0 2 (by omega)] at this
    exact this
  have h3 : acc.a = wrap32 (windowSum input width height radius x y 3) := by
    have := hget 3
    rw [kernel_sum_channel input width height radius x y hr0 3 (by omega)] at this
    exact this
  have hne : acc.count ≠ 0 := by omega
  have e1 : mul32 y width = y * width := mul32_eq (by omega) (by omega)
  have e2 : add32 (y * width) x = y * width + x := add32_eq (by omega) (by omega)
  have o0 : mul32 (y * width + x) 4 = ((4 * p : Nat) : Int) := by
    rw [pixel_offset0 _ (by omega) (by omega)]; omega
  have o1 : add32 (mul32 (y * width + x) 4) 1 = ((4 * p + 1 : Nat) : Int) := by
    rw [pixel_offset _ 1 (by omega) (by omega) (by omega) (by omega)]; omega
  have o2 : add32 (mul32 (y * width + x) 4) 2 = ((4 * p + 2 : Nat) : Int) := by
    rw [pixel_offset _ 2 (by omega) (by omega) (by omega) (by omega)]; omega
  have o3 : add32 (mul32 (y * width + x) 4) 3 = ((4 * p + 3 : Nat) : Int) := by
    rw [pixel_offset _ 3 (by omega) (by omega) (by omega) (by omega)]; omega
  have hlen : 4 * p + 3 < out.length := by omega
  unfold blurPixel
  rw [hacc, ok_bind]
  dsimp only
  rw [e1, e2, div32_ok _ _ hne, ok_bind, writeU8_ok out _ _ _ o0 (by omega), ok_bind,
    div32_ok _ _ hne, ok_bind,
    writeU8_ok _ _ _ _ o1 (by rw [List.length_set]; omega), ok_bind,
    div32_ok _ _ hne, ok_bind,
    writeU8_ok _ _ _ _ o2 (by rw [List.length_set, List.length_set]; omega), ok_bind,
    div32_ok _ _ hne, ok_bind,
    writeU8_ok _ _ _ _ o3 (by rw [List.length_set, List.length_set, List.length_set]; omega)]
  rw [hcount, h0, h1, h2, h3]
  rfl

/-- A row-major index determines the pixel. -/
theorem pixel_index_unique (width x y x1 y1 : Int) (hx0 : 0 ≤ x) (hx : x < width)
    (hx10 : 0 ≤ x1) (hx1 : x1 < width) (h : y1 * width + x1 = y * width + x) :
    x1 = x ∧ y1 = y := by
  have hy : y1 = y := by
    rcases lt_trichotomy y1 y with hlt | heq | hgt
    · exfalso
      have : (y1 + 1) * width ≤ y * width := mul_le_mul_of_nonneg_right (by omega) (by omega)
      nlinarith
    · exact heq
    · exfalso
      have : (y + 1) * width ≤ y1 * width := mul_le_mul_of_nonneg_right (by omega) (by omega)
      nlinarith
  subst hy
  exact ⟨by omega, rfl⟩

theorem blurredUpTo_step (input out : List Byte) (width height radius x y : Int) (m : Nat)
    (hx0 : 0 ≤ x) (hx : x < width) (hm : (m : Int) = y * width + x)
    (hlen : 4 * m + 3 < out.length)
    (hQ : BlurredUpTo input width height radius m out) :
    BlurredUpTo input width height radius (m + 1)
      ((((out.set (4 * m) (blurByte input width height radius x y 0)).set (4 * m + 1)
        (blurByte input width height radius x y 1)).set (4 * m + 2)
        (blurByte input width height radius x y 2)).set (4 * m + 3)
        (blurByte input width height radius x y 3)) := by
  obtain ⟨hl, hQ⟩ := hQ
  refine ⟨by rw [length_set4]; exact hl, ?_⟩
  intro x1 y1 p hx10 hx1 hy10 hy1 hp hpm c hc
  rw [getq_set4 _ _ _ _ _ _ hlen]
  by_cases hpe : p = m
  · subst hpe
    obtain ⟨rfl, rfl⟩ := pixel_index_unique width x y x1 y1 hx0 hx hx10 hx1 (by omega)
    match c with
    | 0 => rw [if_pos (by omega)]
    | 1 => rw [if_neg (by omega), if_pos (by omega)]
    | 2 => rw [if_neg (by omega), if_neg (by omega), if_pos (by omega)]
    | 3 => rw [if_neg (by omega), if_neg (by omega), if_neg (by omega), if_pos (by omega)]
    | k + 4 => omega
  · rw [if_neg (by omega), if_neg (by omega), if_neg (by omega), if_neg (by omega)]
    exact hQ x1 y1 p hx10 hx1 hy10 hy1 hp (by omega) c hc

/-- The loop over `x`: one more row of the output is final. -/
theorem blurRow_spec (input out : List Byte) (width height radius y : Int) (W m0 : Nat)
    (hfit : width * height * 4 < 2147483648)
    (hin : (input.length : Int) = width * height * 4)
    (hr0 : 0 ≤ radius) (hr : radius ≤ 2147483647)
    (hwr : width + radius ≤ 2147483648)
    (hy0 : 0 ≤ y) (hy : y < height) (hhr : height + radius ≤ 2147483648)
    (hW : (W : Int) = width) (hm0 : (m0 : Int) = y * width)
    (hQ : BlurredUpTo input width height radius m0 out) :
    ∃ out1, blurRow input width height radius y out = .ok out1 ∧
      BlurredUpTo input width height radius (m0 + W) out1 := by
  have hwb : width < 536870912 := by nlinarith
  have key := forLoop_count (fun x => decide (x < width)) (blurPixel input width height radius y)
    (fun k s => BlurredUpTo input width height radius (m0 + k) s)
    0 W (by omega) (by omega)
    (by intro k hk; simp only [decide_eq_true_eq]; omega)
    (by simp only [decide_eq_false_iff_not]; omega)
    (by
      intro k s hk hP
      have hx0 : (0 : Int) ≤ 0 + (k : Int) := by omega
      have hx : 0 + (k : Int) < width := by omega
      obtain ⟨b1, b2, b3⟩ := pixel_index_bounds width height (0 + (k : Int)) y hx0 hx hy0 hy
      have hp : ((m0 + k : Nat) : Int) = y * width + (0 + (k : Int)) := by omega
      have hs : s.length = input.length := hP.1
      have hgp := blurPixel_spec input s width height radius (0 + (k : Int)) y (m0 + k) hfit hin
        hs hr0 hr hx0 hx hwr hy0 hy hhr hp
      exact ⟨_, hgp, blurredUpTo_step input s width height radius (0 + (k : Int)) y (m0 + k)
        hx0 hx hp (by omega) hP⟩)
    out hQ
  exact key

/-- The loop over `y`: the whole output is final. -/
theorem applyBlur_run (input output : List Byte) (width height radius : Int)
    (hw : 0 < width) (hh : 0 < height)
    (hfit : width * height * 4 < 2147483648)
    (hin : (input.length : Int) = width * height * 4)
    (hout : output.length = input.length)
    (hr0 : 0 ≤ radius) (hr : radius ≤ 2147483647)
    (hwr : width + radius ≤ 2147483648) (hhr : height + radius ≤ 2147483648) :
    ∃ out, applyBlur input output width height radius = .ok out ∧ out.length = input.length ∧
      ∀ (x y : Int), 0 ≤ x → x < width → 0 ≤ y → y < height → ∀ c, c < 4 →
        out.get? ((y * width + x).toNat * 4 + c) =
          some (blurByte input width height radius x y c) := by
  obtain ⟨W, hW⟩ : ∃ W : Nat, (W : Int) = width := ⟨width.toNat, by omega⟩
  obtain ⟨H, hH⟩ : ∃ H : Nat, (H : Int) = height := ⟨height.toNat, by omega⟩
  have hhb : height < 536870912 := by nlinarith
  have key := forLoop_count (fun y => decide (y < height)) (blurRow input width height radius)
    (fun k s => BlurredUpTo input width height radius (k * W) s)
    0 H (by omega) (by omega)
    (by intro k hk; simp only [decide_eq_true_eq]; omega)
    (by simp only [decide_eq_false_iff_not]; omega)
    (by
      intro k s hk hP
      have hm0 : ((k * W : Nat) : Int) = (0 + (k : Int)) * width := by
        push_cast; rw [hW]; ring
      obtain ⟨out1, h1, h2⟩ := blurRow_spec input s width height radius (0 + (k : Int)) W (k * W)
        hfit hin hr0 hr hwr (by omega) (by omega) hhr hW hm0 hP
      refine ⟨out1, h1, ?_⟩
      show BlurredUpTo input width height radius ((k + 1) * W) out1
      have : (k + 1) * W = k * W + W := by ring
      rw [this]
      exact h2)
    output ⟨hout, by intro x y p _ _ _ _ _ hp; omega⟩
  obtain ⟨out, hrun, hlen, hQ⟩ := key
  refine ⟨out, hrun, hlen, ?_⟩
  intro x y hx0 hx hy0 hy c hc
  obtain ⟨b1, b2, b3⟩ := pixel_index_bounds width height x y hx0 hx hy0 hy
  have hp : (((y * width + x).toNat : Nat) : Int) = y * width + x := Int.toNat_of_nonneg b2
  have hlt : (y * width + x).toNat < H * W := by
    have : ((H * W : Nat) : Int) = width * height := by push_cast; rw [hW, hH]; ring
    omega
  have := hQ x y (y * width + x).toNat hx0 hx hy0 hy hp hlt c hc
  rw [mul_comm] at this
  exact this

/-! ## Size and content of a window -/

/-- A window lies in the square of side `2 * radius + 1` around its centre. -/
theorem windowCount_le_kernel (width height radius x y : Int) (hr0 : 0 ≤ radius) :
    windowCount width height radius x y ≤ (2 * radius + 1) * (2 * radius + 1) := by
  unfold windowCount
  have hsub : windowSet width height radius x y ⊆
      Finset.Icc (x - radius) (x + radius) ×ˢ Finset.Icc (y - radius) (y + radius) := by
    intro p hp
    rw [mem_windowSet] at hp
    simp only [Finset.mem_product, Finset.mem_Icc]
    omega
  have h1 := Finset.card_le_card hsub
  rw [Finset.card_product, Int.card_Icc, Int.card_Icc] at h1
  have e1 : (x + radius + 1 - (x - radius)).toNat = (2 * radius + 1).toNat := by
    congr 1; ring
  have e2 : (y + radius + 1 - (y - radius)).toNat = (2 * radius + 1).toNat := by
    congr 1; ring
  rw [e1, e2] at h1
  have h2 : (((2 * radius + 1).toNat * (2 * radius + 1).toNat : Nat) : Int) =
      (2 * radius + 1) * (2 * radius + 1) := by
    push_cast
    rw [Int.toNat_of_nonneg (by omega)]
  rw [← h2]
  exact_mod_cast h1

theorem channel_nonneg (input : List Byte) (width px py : Int) (c : Nat) :
    0 ≤ channel input width px py c := by
  unfold channel
  split
  · omega
  · omega

theorem channel_le (input : List Byte) (width px py : Int) (c : Nat) :
    channel input width px py c ≤ 255 := by
  unfold channel
  split
  · next v _ => have := v.isLt; omega
  · omega

theorem windowSum_nonneg (input : List Byte) (width height radius x y : Int) (c : Nat) :
    0 ≤ windowSum input width height radius x y c := by
  unfold windowSum
  exact Finset.sum_nonneg (fun p _ => channel_nonneg input width p.1 p.2 c)

theorem windowSum_le (input : List Byte) (width height radius x y : Int) (c : Nat) :
    windowSum input width height radius x y c ≤ 255 * windowCount width height radius x y := by
  unfold windowSum windowCount
  have h := Finset.sum_le_card_nsmul (windowSet width height radius x y)
    (fun p => channel input width p.1 p.2 c) 255 (fun p _ => channel_le input width p.1 p.2 c)
  rw [nsmul_eq_mul] at h
  linarith

/-- When the window sum fits in an `int`, the stored byte is the truncated mean `S / N`. -/
theorem blurByte_eq_mean (input : List Byte) (width height radius x y : Int) (c : Nat)
    (hN : 1 ≤ windowCount width height radius x y)
    (hfit : 255 * windowCount width height radius x y < 2147483648) :
    ((blurByte input width height radius x y c).val : Int) =
      Int.tdiv (windowSum input width height radius x y c) (windowCount width height radius x y) := by
  have h0 := windowSum_nonneg input width height radius x y c
  have h1 := windowSum_le input width height radius x y c
  have hq : Int.tdiv (windowSum input width height radius x y c)
      (windowCount width height radius x y) =
      windowSum input width height radius x y c / windowCount width height radius x y :=
    Int.tdiv_eq_ediv h0 (by omega)
  have hq0 : 0 ≤ windowSum input width height radius x y c /
      windowCount width height radius x y := Int.ediv_nonneg h0 (by omega)
  have hq1 : windowSum input width height radius x y c /
      windowCount width height radius x y ≤ 255 := by
    have : windowSum input width height radius x y c /
        windowCount width height radius x y < 256 := by
      apply Int.ediv_lt_of_lt_mul (by omega)
      linarith
    omega
  have hs : wrap32 (windowSum input width height radius x y c) =
      windowSum input width height radius x y c := wrap32_eq_self (by omega) (by omega)
  unfold blurByte
  rw [hs, hq, wrap32_eq_self (by omega) (by omega)]
  simp only [toU8]
  omega

/-! ## Claims on `toGrayscale` and `applyBlur` -/

/-- C1 (amended): for every width > 0 and height > 0 whose byte count `width * height * 4` is
representable as an `int`, and every input and output buffer of that length, `toGrayscale`
returns a buffer of the same length in which each pixel `(R, G, B, A)` of the input has become
`(L, L, L, A)` with `L = (77 * R + 150 * G + 29 * B) >> 8`. -/
theorem toGrayscale_contract (input output : List Byte) (width height : Int)
    (hw : 0 < width) (hh : 0 < height)
    (hin : (input.length : Int) = width * height * 4) (hout : output.length = input.length)
    (hfit : width * height * 4 < 2147483648) :
    GrayscaleContract input output width height := by
  obtain ⟨out, hrun, hlen, hP⟩ := toGrayscale_spec input output width height hw hh hfit hin hout
  refine ⟨out, hrun, hlen, ?_⟩
  intro i R G B A hi hR hG hB hA
  obtain ⟨q0, q1, q2, q3⟩ := hP i R G B A hi hR hG hB hA
  exact ⟨toU8 (luminance R G B), toU8_luminance_val R G B, q0, q1, q2, q3⟩

theorem toGrayscale_contract_witness :
    GrayscaleContract [255, 0, 0, 128, 0, 255, 0, 255] [9, 9, 9, 9, 9, 9, 9, 9] 2 1 :=
  toGrayscale_contract [255, 0, 0, 128, 0, 255, 0, 255] [9, 9, 9, 9, 9, 9, 9, 9] 2 1
    (by decide) (by decide) (by decide) (by decide) (by decide)

/-- C1 as stated fails: a 65536 x 32768 image has `width * height = 2^31`, which is not an
`int`; `pixels` wraps to a negative number, the loop body never runs and the output buffer is
returned as it was, so a white input pixel is not turned into `(255, 255, 255, 255)`. -/
theorem toGrayscale_contract_counterexample :
    (0 : Int) < 65536 ∧ (0 : Int) < 32768 ∧
    ((List.replicate 8589934592 (255 : Byte)).length : Int) = 65536 * 32768 * 4 ∧
    (List.replicate 8589934592 (0 : Byte)).length =
      (List.replicate 8589934592 (255 : Byte)).length ∧
    ¬ GrayscaleContract (List.replicate 8589934592 255) (List.replicate 8589934592 0)
      65536 32768 := by
  refine ⟨by decide, by decide, by rw [List.length_replicate]; rfl,
    by rw [List.length_replicate, List.length_replicate], ?_⟩
  rintro ⟨out, hrun, -, hP⟩
  have hsame : toGrayscale (List.replicate 8589934592 255) (List.replicate 8589934592 0)
      65536 32768 = .ok (List.replicate 8589934592 0) := rfl
  rw [hsame] at hrun
  cases hrun
  obtain ⟨L, hL, h0, -⟩ := hP 0 255 255 255 255 (by decide) rfl rfl rfl rfl
  have h1 : (List.replicate 8589934592 (0 : Byte)).get? (4 * 0) = some 0 := rfl
  rw [h1] at h0
  cases h0
  revert hL
  decide

theorem channel_replicate (L : Nat) (v : Byte) (width px py : Int) (c : Nat)
    (h : ((py * width + px) * 4).toNat + c < L) :
    channel (List.replicate L v) width px py c = (v.val : Int) := by
  unfold channel
  rw [List.get?_eq_getElem?, List.getElem?_replicate, if_pos h]

/-- On a window where channel `c` is constant the window sum is the count times the value. -/
theorem windowSum_const (input : List Byte) (width height radius x y : Int) (c : Nat) (v : Int)
    (h : ∀ p ∈ windowSet width height radius x y, channel input width p.1 p.2 c = v) :
    windowSum input width height radius x y c = windowCount width height radius x y * v := by
  unfold windowSum windowCount
  rw [Finset.sum_congr rfl h, Finset.sum_const, nsmul_eq_mul]

/-- A window that reaches all four borders is the whole image. -/
theorem windowCount_full (width height radius x y : Int) (hw : 0 ≤ width) (hh : 0 ≤ height)
    (hx1 : x - radius ≤ 0) (hx2 : width - 1 ≤ x + radius)
    (hy1 : y - radius ≤ 0) (hy2 : height - 1 ≤ y + radius) :
    windowCount width height radius x y = width * height := by
  unfold windowCount
  have hset : windowSet width height radius x y =
      Finset.Ico 0 width ×ˢ Finset.Ico 0 height := by
    ext p
    rw [mem_windowSet]
    simp only [Finset.mem_product, Finset.mem_Ico]
    omega
  rw [hset, Finset.card_product, Int.card_Ico, Int.card_Ico]
  push_cast
  rw [sub_zero, sub_zero, Int.toNat_of_nonneg hw, Int.toNat_of_nonneg hh]

/-- On an image whose bytes are all `v`, every window sum is the count times `v`. -/
theorem windowSum_replicate (L : Nat) (v : Byte) (width height radius x y : Int) (c : Nat)
    (hc : c < 4) (hL : width * height * 4 ≤ (L : Int)) :
    windowSum (List.replicate L v) width height radius x y c =
      windowCount width height radius x y * (v.val : Int) := by
  apply windowSum_const
  intro p hp
  rw [mem_windowSet] at hp
  obtain ⟨b1, b2, b3⟩ := pixel_index_bounds width height p.1 p.2 hp.1.1 hp.1.2 hp.2.1.1
    hp.2.1.2
  exact channel_replicate L v width p.1 p.2 c (by omega)

/-- C2 (amended): for every width > 0 and height > 0 with `width * height * 4` representable as
an `int`, every radius with `1 <= radius <= 1450` and every input buffer of length
`width * height * 4`, the output of `applyBlur` at pixel `(x, y)`, channel `c`, is `S / N`
truncated toward zero, where `S` sums channel `c` over the pixels `(px, py)` of the image with
`|px - x| <= radius` and `|py - y| <= radius` and `N` counts them. -/
theorem applyBlur_contract (input output : List Byte) (width height radius : Int)
    (hw : 0 < width) (hh : 0 < height)
    (hin : (input.length : Int) = width * height * 4) (hout : output.length = input.length)
    (hfit : width * height * 4 < 2147483648)
    (hr1 : 1 ≤ radius) (hr : radius ≤ 1450) :
    BlurContract input output width height radius := by
  have hwb : width < 536870912 := by nlinarith
  have hhb : height < 536870912 := by nlinarith
  obtain ⟨out, hrun, -, hQ⟩ := applyBlur_run input output width height radius hw hh hfit hin hout
    (by omega) (by omega) (by omega) (by omega)
  refine ⟨out, hrun, ?_⟩
  intro x y hx0 hx hy0 hy c hc
  have hN1 := windowCount_pos width height radius x y (by omega) hx0 hx hy0 hy
  have hN2 := windowCount_le_kernel width height radius x y (by omega)
  have hk : (2 * radius + 1) * (2 * radius + 1) ≤ 2901 * 2901 :=
    mul_le_mul (by omega) (by omega) (by omega) (by omega)
  unfold byteAt
  rw [hQ x y hx0 hx hy0 hy c hc, Option.map_some',
    blurByte_eq_mean input width height radius x y c hN1 (by omega)]

theorem applyBlur_contract_witness :
    BlurContract [255, 0, 0, 128, 0, 255, 0, 255] [9, 9, 9, 9, 9, 9, 9, 9] 2 1 1 :=
  applyBlur_contract [255, 0, 0, 128, 0, 255, 0, 255] [9, 9, 9, 9, 9, 9, 9, 9] 2 1 1
    (by decide) (by decide) (by decide) (by decide) (by decide) (by decide) (by decide)

/-- C2 as stated fails, in two ways. On a white 2903 x 2903 image blurred with radius 1451 the
window of the centre pixel is the whole image and the sum `255 * 2903^2` exceeds `2^31 - 1`: the
accumulator wraps and the byte stored is 2, not the mean 255. On a 536870912 x 2 image the byte
offset of row 1 is `2^31`, which wraps to a negative `int`: the first pixel already reads outside
the buffer. -/
theorem applyBlur_contract_counterexample :
    ((1 : Int) ≤ 1451 ∧
      ((List.replicate 33709636 (255 : Byte)).length : Int) = 2903 * 2903 * 4 ∧
      ¬ BlurContract (List.replicate 33709636 255) (List.replicate 33709636 0) 2903 2903 1451) ∧
    ((1 : Int) ≤ 1 ∧
      ((List.replicate 4294967296 (7 : Byte)).length : Int) = 536870912 * 2 * 4 ∧
      ¬ BlurContract (List.replicate 4294967296 7) (List.replicate 4294967296 0)
        536870912 2 1) := by
  have hlen : ((List.replicate 33709636 (255 : Byte)).length : Int) = 2903 * 2903 * 4 := by
    rw [List.length_replicate]; rfl
  refine ⟨⟨by decide, hlen, ?_⟩, ⟨by decide, by rw [List.length_replicate]; rfl, ?_⟩⟩
  · rintro ⟨out, hrun, hP⟩
    obtain ⟨out1, hrun1, -, hQ⟩ := applyBlur_run (List.replicate 33709636 255)
      (List.replicate 33709636 0) 2903 2903 1451 (by decide) (by decide) (by decide) hlen
      (by rw [List.length_replicate, List.length_replicate]) (by decide) (by decide)
      (by decide) (by decide)
    rw [hrun] at hrun1
    cases hrun1
    have h1 := hP 1451 1451 (by decide) (by decide) (by decide) (by decide) 0 (by decide)
    have h2 := hQ 1451 1451 (by decide) (by decide) (by decide) (by decide) 0 (by decide)
    unfold byteAt at h1
    rw [h2, Option.map_some'] at h1
    have hN : windowCount 2903 2903 1451 1451 1451 = 8427409 := by
      rw [windowCount_full 2903 2903 1451 1451 1451 (by decide) (by decide) (by decide)
        (by decide) (by decide) (by decide)]
      rfl
    have hS : windowSum (List.replicate 33709636 255) 2903 2903 1451 1451 1451 0 =
        8427409 * 255 := by
      rw [windowSum_replicate 33709636 255 2903 2903 1451 1451 1451 0 (by decide) (by decide),
        hN]
      rfl
    unfold blurByte at h1
    rw [hS, hN] at h1
    revert h1
    decide
  · rintro ⟨out, hrun, -⟩
    have hbad : applyBlur (List.replicate 4294967296 7) (List.replicate 4294967296 0)
        536870912 2 1 = .error .outOfBounds := by decide
    rw [hbad] at hrun
    cases hrun

/-! ## Buffers are determined by their pixels -/

/-- Two buffers of `n` pixels that agree on every channel of every pixel are equal. -/
theorem list_eq_of_pixels (a b : List Byte) (n : Nat) (ha : a.length = 4 * n)
    (hb : b.length = 4 * n)
    (h : ∀ p, p < n → ∀ c, c < 4 → a.get? (4 * p + c) = b.get? (4 * p + c)) : a = b := by
  apply List.ext_get?
  intro j
  by_cases hj : j < 4 * n
  · have := h (j / 4) (by omega) (j % 4) (by omega)
    have e : 4 * (j / 4) + j % 4 = j := by omega
    rw [e] at this
    exact this
  · rw [List.get?_eq_none.2 (by omega), List.get?_eq_none.2 (by omega)]

/-- Every row-major index below the pixel count is the index of a pixel of the image. -/
theorem exists_pixel_coords (width height : Int) (p : Nat) (hw : 0 < width)
    (hp : (p : Int) < width * height) :
    ∃ x y : Int, 0 ≤ x ∧ x < width ∧ 0 ≤ y ∧ y < height ∧ (p : Int) = y * width + x := by
  refine ⟨(p : Int) % width, (p : Int) / width, Int.emod_nonneg _ (by omega),
    Int.emod_lt_of_pos _ hw, Int.ediv_nonneg (by omega) (by omega), ?_, ?_⟩
  · exact Int.ediv_lt_of_lt_mul hw (by rw [mul_comm]; exact hp)
  · have := Int.emod_add_ediv (p : Int) width
    rw [mul_comm] at this
    omega

/-- The result of `applyBlur` is the buffer made of the bytes `blurByte`, whatever the output
buffer held before. -/
theorem applyBlur_eq_of_bytes (input output expected : List Byte) (width height radius : Int)
    (hw : 0 < width) (hh : 0 < height)
    (hfit : width * height * 4 < 2147483648)
    (hin : (input.length : Int) = width * height * 4)
    (hout : output.length = input.length)
    (hr0 : 0 ≤ radius) (hr : radius ≤ 2147483647)
    (hwr : width + radius ≤ 2147483648) (hhr : height + radius ≤ 2147483648)
    (hlen : expected.length = input.length)
    (hexp : ∀ (x y : Int), 0 ≤ x → x < width → 0 ≤ y → y < height → ∀ c, c < 4 →
      expected.get? ((y * width + x).toNat * 4 + c) =
        some (blurByte input width height radius x y c)) :
    applyBlur input output width height radius = .ok expected := by
  obtain ⟨out, hrun, hl, hQ⟩ := applyBlur_run input output width height radius hw hh hfit hin
    hout hr0 hr hwr hhr
  rw [hrun]
  congr 1
  obtain ⟨n, hn⟩ : ∃ n : Nat, (n : Int) = width * height :=
    ⟨(width * height).toNat, Int.toNat_of_nonneg (by nlinarith)⟩
  apply list_eq_of_pixels out expected n (by omega) (by omega)
  intro p hp c hc
  obtain ⟨x, y, hx0, hx, hy0, hy, hxy⟩ := exists_pixel_coords width height p hw (by omega)
  have e : 4 * p + c = (y * width + x).toNat * 4 + c := by omega
  rw [e, hQ x y hx0 hx hy0 hy c hc, hexp x y hx0 hx hy0 hy c hc]

/-- The result of `applyBlur` does not depend on what the output buffer held before. -/
theorem applyBlur_indep (input o1 o2 : List Byte) (width height radius : Int)
    (hw : 0 < width) (hh : 0 < height)
    (hfit : width * height * 4 < 2147483648)
    (hin : (input.length : Int) = width * height * 4)
    (h1 : o1.length = input.length) (h2 : o2.length = input.length)
    (hr0 : 0 ≤ radius) (hr : radius ≤ 2147483647)
    (hwr : width + radius ≤ 2147483648) (hhr : height + radius ≤ 2147483648) :
    ∃ out, applyBlur input o1 width height radius = .ok out ∧
      applyBlur input o2 width height radius = .ok out ∧ out.length = input.length := by
  obtain ⟨out, hrun, hl, hQ⟩ := applyBlur_run input o1 width height radius hw hh hfit hin
    h1 hr0 hr hwr hhr
  exact ⟨out, hrun, applyBlur_eq_of_bytes input o2 out width height radius hw hh hfit hin h2
    hr0 hr hwr hhr hl hQ, hl⟩

/-- The result of `toGrayscale` does not depend on what the output buffer held before. -/
theorem toGrayscale_indep (input o1 o2 : List Byte) (width height : Int)
    (hw : 0 < width) (hh : 0 < height)
    (hfit : width * height * 4 < 2147483648)
    (hin : (input.length : Int) = width * height * 4)
    (h1 : o1.length = input.length) (h2 : o2.length = input.length) :
    ∃ out, toGrayscale input o1 width height = .ok out ∧
      toGrayscale input o2 width height = .ok out ∧ out.length = input.length := by
  obtain ⟨g1, hrun1, hl1, hP1⟩ := toGrayscale_spec input o1 width height hw hh hfit hin h1
  obtain ⟨g2, hrun2, hl2, hP2⟩ := toGrayscale_spec input o2 width height hw hh hfit hin h2
  refine ⟨g1, hrun1, ?_, hl1⟩
  rw [hrun2]
  congr 1
  obtain ⟨n, hn⟩ : ∃ n : Nat, (n : Int) = width * height :=
    ⟨(width * height).toNat, Int.toNat_of_nonneg (by nlinarith)⟩
  apply list_eq_of_pixels g2 g1 n (by omega) (by omega)
  intro p hp c hc
  obtain ⟨R, hR⟩ := getq_some_of_lt input (4 * p) (by omega)
  obtain ⟨G, hG⟩ := getq_some_of_lt input (4 * p + 1) (by omega)
  obtain ⟨B, hB⟩ := getq_some_of_lt input (4 * p + 2) (by omega)
  obtain ⟨A, hA⟩ := getq_some_of_lt input (4 * p + 3) (by omega)
  obtain ⟨a0, a1, a2, a3⟩ := hP1 p R G B A (by omega) hR hG hB hA
  obtain ⟨b0, b1, b2, b3⟩ := hP2 p R G B A (by omega) hR hG hB hA
  match c with
  | 0 => rw [add_zero, a0, b0]
  | 1 => rw [a1, b1]
  | 2 => rw [a2, b2]
  | 3 => rw [a3, b3]
  | k + 4 => omega

/-! ## Uniform images -/

theorem toU8_val (v : Byte) : toU8 (v.val : Int) = v := by
  have := v.isLt
  apply Fin.ext
  simp only [toU8]
  omega

/-- On a uniform image whose window sums fit in an `int`, the byte stored for a pixel is the
byte that every pixel holds. -/
theorem blurByte_uniform (input : List Byte) (width height radius x y : Int) (c : Nat)
    (v : Byte)
    (hN1 : 1 ≤ windowCount width height radius x y)
    (hN2 : 255 * windowCount width height radius x y < 2147483648)
    (hv : ∀ p ∈ windowSet width height radius x y, channel input width p.1 p.2 c = (v.val : Int)) :
    blurByte input width height radius x y c = v := by
  have hvl := v.isLt
  have hS := windowSum_const input width height radius x y c (v.val : Int) hv
  have hle : windowCount width height radius x y * (v.val : Int) ≤
      windowCount width height radius x y * 255 :=
    mul_le_mul_of_nonneg_left (by omega) (by omega)
  have h0 : 0 ≤ windowCount width height radius x y * (v.val : Int) :=
    mul_nonneg (by omega) (by omega)
  have e1 : wrap32 (windowCount width height radius x y * (v.val : Int)) =
      windowCount width height radius x y * (v.val : Int) := wrap32_eq_self (by omega) (by omega)
  have e2 : wrap32 (v.val : Int) = (v.val : Int) := wrap32_eq_self (by omega) (by omega)
  unfold blurByte
  rw [hS, e1, Int.mul_tdiv_cancel_left _ (by omega), e2]
  exact toU8_val v

/-- Blurring a uniform image whose window sums fit in an `int` returns the image. -/
theorem applyBlur_uniform (input output : List Byte) (width height radius : Int)
    (R G B A : Byte)
    (hw : 0 < width) (hh : 0 < height)
    (hfit : width * height * 4 < 2147483648)
    (hin : (input.length : Int) = width * height * 4)
    (hout : output.length = input.length)
    (hr0 : 0 ≤ radius) (hr : radius ≤ 2147483647)
    (hwr : width + radius ≤ 2147483648) (hhr : height + radius ≤ 2147483648)
    (hN : ∀ x y, 255 * windowCount width height radius x y < 2147483648)
    (hunif : IsUniform input R G B A) :
    applyBlur input output width height radius = .ok input := by
  apply applyBlur_eq_of_bytes input output input width height radius hw hh hfit hin hout hr0 hr
    hwr hhr rfl
  intro x y hx0 hx hy0 hy c hc
  obtain ⟨b1, b2, b3⟩ := pixel_index_bounds width height x y hx0 hx hy0 hy
  obtain ⟨n, hn⟩ : ∃ n : Nat, (n : Int) = y * width + x := ⟨(y * width + x).toNat, by omega⟩
  have hN1 := windowCount_pos width height radius x y hr0 hx0 hx hy0 hy
  have hchan : ∀ (v : Byte) (c : Nat), c < 4 →
      (∀ i : Nat, 4 * i + 3 < input.length → input.get? (4 * i + c) = some v) →
      ∀ p ∈ windowSet width height radius x y, channel input width p.1 p.2 c = (v.val : Int) := by
    intro v c hc hvc p hp
    rw [mem_windowSet] at hp
    obtain ⟨d1, d2, d3⟩ := pixel_index_bounds width height p.1 p.2 hp.1.1 hp.1.2 hp.2.1.1
      hp.2.1.2
    obtain ⟨m, hm⟩ : ∃ m : Nat, (m : Int) = p.2 * width + p.1 :=
      ⟨(p.2 * width + p.1).toNat, by omega⟩
    have := hvc m (by omega)
    exact channel_eq input width p.1 p.2 c (4 * m) v (by omega) this
  have hidx : (y * width + x).toNat * 4 + c = 4 * n + c := by omega
  have hu := hunif n (by omega)
  rw [hidx]
  match c with
  | 0 =>
    rw [blurByte_uniform input width height radius x y 0 R hN1 (hN x y)
      (hchan R 0 (by omega) (fun i hi => (hunif i hi).1))]
    exact hu.1
  | 1 =>
    rw [blurByte_uniform input width height radius x y 1 G hN1 (hN x y)
      (hchan G 1 (by omega) (fun i hi => (hunif i hi).2.1))]
    exact hu.2.1
  | 2 =>
    rw [blurByte_uniform input width height radius x y 2 B hN1 (hN x y)
      (hchan B 2 (by omega) (fun i hi => (hunif i hi).2.2.1))]
    exact hu.2.2.1
  | 3 =>
    rw [blurByte_uniform input width height radius x y 3 A hN1 (hN x y)
      (hchan A 3 (by omega) (fun i hi => (hunif i hi).2.2.2))]
    exact hu.2.2.2
  | k + 4 => omega

/-- C8 (amended): for every uniform-colour image (all pixels equal to the same `(R, G, B, A)`),
every width > 0 and height > 0 with `width * height * 4` representable as an `int` and every
radius in `[1, 50]`, `applyBlur` returns the input buffer unchanged: every interior and border
pixel of the output is `(R, G, B, A)`. -/
theorem applyBlur_uniform_unchanged (input output : List Byte) (width height radius : Int)
    (R G B A : Byte)
    (hw : 0 < width) (hh : 0 < height)
    (hin : (input.length : Int) = width * height * 4) (hout : output.length = input.length)
    (hunif : IsUniform input R G B A)
    (hr1 : 1 ≤ radius) (hr : radius ≤ 50)
    (hfit : width * height * 4 < 2147483648) :
    applyBlur input output width height radius = .ok input := by
  have hwb : width < 536870912 := by nlinarith
  have hhb : height < 536870912 := by nlinarith
  apply applyBlur_uniform input output width height radius R G B A hw hh hfit hin hout
    (by omega) (by omega) (by omega) (by omega) ?_ hunif
  intro x y
  have h1 := windowCount_le_kernel width height radius x y (by omega)
  have hk : (2 * radius + 1) * (2 * radius + 1) ≤ 101 * 101 :=
    mul_le_mul (by omega) (by omega) (by omega) (by omega)
  omega

theorem isUniform_small : IsUniform [10, 20, 30, 40, 10, 20, 30, 40] 10 20 30 40 := by
  intro i hi
  have hi2 : i < 2 := by
    simp only [List.length_cons, List.length_nil] at hi
    omega
  interval_cases i <;> exact ⟨rfl, rfl, rfl, rfl⟩

theorem applyBlur_uniform_unchanged_witness :
    applyBlur [10, 20, 30, 40, 10, 20, 30, 40] [9, 9, 9, 9, 9, 9, 9, 9] 2 1 50 =
      .ok [10, 20, 30, 40, 10, 20, 30, 40] :=
  applyBlur_uniform_unchanged [10, 20, 30, 40, 10, 20, 30, 40] [9, 9, 9, 9, 9, 9, 9, 9] 2 1 50
    10 20 30 40 (by decide) (by decide) (by decide) (by decide) isUniform_small
    (by decide) (by decide) (by decide)

/-- C8 as stated fails: on the uniform 536870912 x 4 image the byte offset of row 1 is `2^31`,
which wraps to a negative `int`, and the blur of the first pixel reads outside the buffer
instead of returning the image. -/
theorem applyBlur_uniform_counterexample :
    (0 : Int) < 536870912 ∧ (0 : Int) < 4 ∧
    ((List.replicate 8589934592 (7 : Byte)).length : Int) = 536870912 * 4 * 4 ∧
    (List.replicate 8589934592 (0 : Byte)).length =
      (List.replicate 8589934592 (7 : Byte)).length ∧
    IsUniform (List.replicate 8589934592 7) 7 7 7 7 ∧
    applyBlur (List.replicate 8589934592 7) (List.replicate 8589934592 0) 536870912 4 1 ≠
      .ok (List.replicate 8589934592 7) := by
  refine ⟨by decide, by decide, by rw [List.length_replicate]; rfl,
    by rw [List.length_replicate, List.length_replicate], ?_, ?_⟩
  · intro i hi
    rw [List.length_replicate] at hi
    rw [List.get?_eq_getElem?, List.get?_eq_getElem?, List.get?_eq_getElem?,
      List.get?_eq_getElem?, List.getElem?_replicate, List.getElem?_replicate,
      List.getElem?_replicate, List.getElem?_replicate, if_pos (by omega), if_pos (by omega),
      if_pos (by omega), if_pos (by omega)]
    exact ⟨rfl, rfl, rfl, rfl⟩
  · have hbad : applyBlur (List.replicate 8589934592 7) (List.replicate 8589934592 0)
        536870912 4 1 = .error .outOfBounds := by decide
    rw [hbad]
    intro h
    cases h

/-! ## The 1 x 1 image -/

theorem length_allocBytes (garbage : Nat → Byte) (n : Nat) :
    (allocBytes garbage n).length = n := by
  unfold allocBytes
  rw [List.length_map, List.length_range]

/-- The size of the temporary buffer is the byte count of the image when that count is an
`int`. -/
theorem bufferSize_eq (width height : Int) (n : Nat) (hw : 0 < width) (hh : 0 < height)
    (hfit : width * height * 4 < 2147483648) (hn : (n : Int) = width * height * 4) :
    toSizeT (mul32 (mul32 width height) 4) = n := by
  have hpos : 0 < width * height := Int.mul_pos hw hh
  have e1 : mul32 width height = width * height := mul32_eq (by omega) (by omega)
  have e2 : mul32 (width * height) 4 = width * height * 4 := mul32_eq (by omega) (by omega)
  rw [e1, e2]
  unfold toSizeT
  omega

/-- The pipeline runs without a fault and returns the blur of the grayscale image. -/
theorem process_spec (garbage : Nat → Byte) (input output : List Byte)
    (width height blurRadius : Int)
    (hw : 0 < width) (hh : 0 < height)
    (hin : (input.length : Int) = width * height * 4) (hout : output.length = input.length)
    (hfit : width * height * 4 < 2147483648)
    (hr0 : 0 ≤ blurRadius) (hr : blurRadius ≤ 2147483647)
    (hwr : width + blurRadius ≤ 2147483648) (hhr : height + blurRadius ≤ 2147483648) :
    ∃ gray out, toGrayscale input (allocBytes garbage input.length) width height = .ok gray ∧
      gray.length = input.length ∧
      applyBlur gray output width height blurRadius = .ok out ∧
      out.length = input.length ∧
      process garbage input output width height blurRadius = .ok out := by
  obtain ⟨gray, hg, hgl, -⟩ := toGrayscale_spec input (allocBytes garbage input.length)
    width height hw hh hfit hin (length_allocBytes garbage input.length)
  obtain ⟨out, hb, hbl, -⟩ := applyBlur_run gray output width height blurRadius hw hh hfit
    (by rw [hgl]; exact hin) (by rw [hgl]; exact hout) hr0 hr hwr hhr
  refine ⟨gray, out, hg, hgl, hb, by rw [hbl, hgl], ?_⟩
  unfold process
  dsimp only
  rw [bufferSize_eq width height input.length hw hh hfit hin, hg, ok_bind]
  exact hb

/-- C3 (amended): for every valid input (width > 0, height > 0, 1 <= blurRadius <= 50,
len(input) = width * height * 4) whose byte count `width * height * 4` is representable as an
`int`, `process` returns, and its output is the output of `applyBlur` with `blurRadius` on the
complete result of `toGrayscale`: process(input, w, h, r) = applyBlur(toGrayscale(input, w, h),
w, h, r). -/
theorem process_eq_blur_of_gray (garbage : Nat → Byte) (input output : List Byte)
    (width height blurRadius : Int)
    (hw : 0 < width) (hh : 0 < height)
    (hr1 : 1 ≤ blurRadius) (hr : blurRadius ≤ 50)
    (hin : (input.length : Int) = width * height * 4) (hout : output.length = input.length)
    (hfit : width * height * 4 < 2147483648) :
    PipelineContract garbage input output width height blurRadius := by
  have hwb : width < 536870912 := by nlinarith
  have hhb : height < 536870912 := by nlinarith
  intro temp htemp
  obtain ⟨gray, out, hg, hgl, hb, -, hp⟩ := process_spec garbage input output width height
    blurRadius hw hh hin hout hfit (by omega) (by omega) (by omega) (by omega)
  obtain ⟨g1, h1, h2, -⟩ := toGrayscale_indep input temp (allocBytes garbage input.length)
    width height hw hh hfit hin htemp (length_allocBytes garbage input.length)
  rw [hg] at h2
  cases h2
  exact ⟨gray, out, h1, hb, hp⟩

theorem process_eq_blur_of_gray_witness :
    PipelineContract (fun _ => 7) [255, 0, 0, 128, 0, 255, 0, 255] [9, 9, 9, 9, 9, 9, 9, 9]
      2 1 1 :=
  process_eq_blur_of_gray (fun _ => 7) [255, 0, 0, 128, 0, 255, 0, 255]
    [9, 9, 9, 9, 9, 9, 9, 9] 2 1 1 (by decide) (by decide) (by decide) (by decide)
    (by decide) (by decide) (by decide)

/-- C3 as stated fails: for a 65536 x 32768 image `width * height * 4` wraps to 0, the temporary
buffer has no byte, `toGrayscale` does nothing (`pixels` is negative) and `applyBlur` reads the
empty temporary buffer: `process` produces no output. -/
theorem process_eq_blur_of_gray_counterexample :
    (0 : Int) < 65536 ∧ (0 : Int) < 32768 ∧ (1 : Int) ≤ 1 ∧ (1 : Int) ≤ 50 ∧
    ((List.replicate 8589934592 (255 : Byte)).length : Int) = 65536 * 32768 * 4 ∧
    (List.replicate 8589934592 (0 : Byte)).length =
      (List.replicate 8589934592 (255 : Byte)).length ∧
    process (fun _ => 0) (List.replicate 8589934592 255) (List.replicate 8589934592 0)
      65536 32768 1 = .error .outOfBounds ∧
    ¬ PipelineContract (fun _ => 0) (List.replicate 8589934592 255)
      (List.replicate 8589934592 0) 65536 32768 1 := by
  have hbad : process (fun _ => 0) (List.replicate 8589934592 255)
      (List.replicate 8589934592 0) 65536 32768 1 = .error .outOfBounds := by decide
  refine ⟨by decide, by decide, by decide, by decide, by rw [List.length_replicate]; rfl,
    by rw [List.length_replicate, List.length_replicate], hbad, ?_⟩
  intro h
  obtain ⟨gray, out, -, -, hp⟩ := h (List.replicate 8589934592 0)
    (by rw [List.length_replicate, List.length_replicate])
  rw [hbad] at hp
  cases hp

/-- C4 (amended): for every valid input (width > 0, height > 0, 1 <= blurRadius <= 50,
len(input) = width * height * 4) whose byte count `width * height * 4` is representable as an
`int`, `process` writes every byte of an output buffer whose length is len(input); so do
`toGrayscale` and `applyBlur` individually. -/
theorem process_writes_all (garbage : Nat → Byte) (input : List Byte)
    (width height blurRadius : Int)
    (hw : 0 < width) (hh : 0 < height)
    (hr1 : 1 ≤ blurRadius) (hr : blurRadius ≤ 50)
    (hin : (input.length : Int) = width * height * 4)
    (hfit : width * height * 4 < 2147483648) :
    WritesAll (fun o => process garbage input o width height blurRadius) input.length ∧
    WritesAll (fun o => toGrayscale input o width height) input.length ∧
    WritesAll (fun o => applyBlur input o width height blurRadius) input.length := by
  have hwb : width < 536870912 := by nlinarith
  have hhb : height < 536870912 := by nlinarith
  refine ⟨?_, ?_, ?_⟩
  · intro o1 o2 h1 h2
    obtain ⟨gray, out1, hg, hgl, hb1, hl1, hp1⟩ := process_spec garbage input o1 width height
      blurRadius hw hh hin h1 hfit (by omega) (by omega) (by omega) (by omega)
    obtain ⟨gray2, out2, hg2, -, hb2, -, hp2⟩ := process_spec garbage input o2 width height
      blurRadius hw hh hin h2 hfit (by omega) (by omega) (by omega) (by omega)
    rw [hg] at hg2
    cases hg2
    obtain ⟨out, e1, e2, -⟩ := applyBlur_indep gray o1 o2 width height blurRadius hw hh hfit
      (by rw [hgl]; exact hin) (by rw [hgl]; exact h1) (by rw [hgl]; exact h2)
      (by omega) (by omega) (by omega) (by omega)
    rw [hb1] at e1
    cases e1
    rw [hb2] at e2
    cases e2
    exact ⟨out1, hp1, hp2, hl1⟩
  · intro o1 o2 h1 h2
    exact toGrayscale_indep input o1 o2 width height hw hh hfit hin h1 h2
  · intro o1 o2 h1 h2
    exact applyBlur_indep input o1 o2 width height blurRadius hw hh hfit hin h1 h2
      (by omega) (by omega) (by omega) (by omega)

theorem process_writes_all_witness :
    WritesAll (fun o => process (fun _ => 7) [255, 0, 0, 128, 0, 255, 0, 255] o 2 1 1)
      [255, 0, 0, 128, 0, 255, 0, 255].length ∧
    WritesAll (fun o => toGrayscale [255, 0, 0, 128, 0, 255, 0, 255] o 2 1)
      [255, 0, 0, 128, 0, 255, 0, 255].length ∧
    WritesAll (fun o => applyBlur [255, 0, 0, 128, 0, 255, 0, 255] o 2 1 1)
      [255, 0, 0, 128, 0, 255, 0, 255].length :=
  process_writes_all (fun _ => 7) [255, 0, 0, 128, 0, 255, 0, 255] 2 1 1
    (by decide) (by decide) (by decide) (by decide) (by decide) (by decide)

/-- C4 as stated fails: for a 536870912 x 2 image `width * height * 4` wraps to 0, the temporary
buffer has no byte and the first write of `toGrayscale` into it is out of bounds: `process`
writes nothing to the output buffer. -/
theorem process_writes_all_counterexample :
    (0 : Int) < 536870912 ∧ (0 : Int) < 2 ∧ (1 : Int) ≤ 1 ∧ (1 : Int) ≤ 50 ∧
    ((List.replicate 4294967296 (255 : Byte)).length : Int) = 536870912 * 2 * 4 ∧
    process (fun _ => 0) (List.replicate 4294967296 255) (List.replicate 4294967296 0)
      536870912 2 1 = .error .outOfBounds ∧
    ¬ WritesAll (fun o => process (fun _ => 0) (List.replicate 4294967296 255) o 536870912 2 1)
      (List.replicate 4294967296 (255 : Byte)).length := by
  have hbad : process (fun _ => 0) (List.replicate 4294967296 255)
      (List.replicate 4294967296 0) 536870912 2 1 = .error .outOfBounds := by decide
  refine ⟨by decide, by decide, by decide, by decide, by rw [List.length_replicate]; rfl,
    hbad, ?_⟩
  intro h
  obtain ⟨out, h1, -, -⟩ := h (List.replicate 4294967296 0) (List.replicate 4294967296 0)
    (by rw [List.length_replicate, List.length_replicate])
    (by rw [List.length_replicate, List.length_replicate])
  have h1 : process (fun _ => 0) (List.replicate 4294967296 255)
      (List.replicate 4294967296 0) 536870912 2 1 = .ok out := h1
  rw [hbad] at h1
  cases h1

theorem readU8_inBounds (buf : List Byte) (off : Int) (v : Byte) (h : readU8 buf off = .ok v) :
    0 ≤ off ∧ off < (buf.length : Int) := by
  unfold readU8 at h
  split at h
  · next h0 =>
    split at h
    · next w hw =>
      have := (List.get?_eq_some.1 hw).1
      omega
    · cases h
  · cases h

theorem writeU8_inBounds (buf : List Byte) (off : Int) (v : Byte) (out : List Byte)
    (h : writeU8 buf off v = .ok out) : 0 ≤ off ∧ off < (buf.length : Int) := by
  unfold writeU8 at h
  split at h
  · next h0 =>
    split at h
    · next w hw =>
      have := (List.get?_eq_some.1 hw).1
      omega
    · cases h
  · cases h

/-- The divisor of a pixel is the number of pixels of its window, which is at least one. -/
theorem blurKernel_count (input : List Byte) (width height radius x y : Int)
    (hfit : width * height * 4 < 2147483648)
    (hin : (input.length : Int) = width * height * 4)
    (hr0 : 0 ≤ radius) (hr : radius ≤ 2147483647)
    (hx0 : 0 ≤ x) (hx : x < width) (hwr : width + radius ≤ 2147483648)
    (hy0 : 0 ≤ y) (hy : y < height) (hhr : height + radius ≤ 2147483648) :
    ∃ acc, blurKernel input width height radius x y = .ok acc ∧
      acc.count = windowCount width height radius x y ∧ 1 ≤ acc.count := by
  obtain ⟨acc, hacc, hget⟩ := blurKernel_spec input width height radius x y hfit hin hr0 hr
    hx0 hx hwr hy0 hy hhr
  have hN1 := windowCount_pos width height radius x y hr0 hx0 hx hy0 hy
  have hN2 := windowCount_le width height radius x y (by omega) (by omega)
  have hcount : acc.count = windowCount width height radius x y := by
    have := hget 4
    rw [kernel_sum_count input width height radius x y hr0 4 (by omega)] at this
    rw [wrap32_eq_self (by omega) (by omega)] at this
    exact this
  exact ⟨acc, hacc, hcount, by omega⟩

/-- C7: under the core preconditions (width > 0, height > 0, 1 <= blurRadius <= 50,
len(input) = len(output) = width * height * 4, with width * height * 4 representable as an
`int`), `process` has no internal error case: `toGrayscale`, `applyBlur` and `process` return
without a fault, so that every buffer index they read or write lies inside its buffer of
`width * height * 4` bytes (an access is free of fault only inside the buffer), and the divisor
`count` of every pixel is at least 1. -/
theorem process_no_fault (garbage : Nat → Byte) (input output : List Byte)
    (width height blurRadius : Int)
    (hw : 0 < width) (hh : 0 < height)
    (hr1 : 1 ≤ blurRadius) (hr : blurRadius ≤ 50)
    (hin : (input.length : Int) = width * height * 4) (hout : output.length = input.length)
    (hfit : width * height * 4 ≤ 2147483647) :
    (∃ gray out, toGrayscale input (allocBytes garbage input.length) width height = .ok gray ∧
      gray.length = input.length ∧
      (allocBytes garbage input.length).length = input.length ∧
      applyBlur gray output width height blurRadius = .ok out ∧
      process garbage input output width height blurRadius = .ok out ∧
      ∀ x y : Int, 0 ≤ x → x < width → 0 ≤ y → y < height →
        ∃ acc, blurKernel gray width height blurRadius x y = .ok acc ∧ 1 ≤ acc.count) ∧
    (∀ (buf : List Byte) (off : Int) (v : Byte), readU8 buf off = .ok v →
      0 ≤ off ∧ off < (buf.length : Int)) ∧
    (∀ (buf : List Byte) (off : Int) (v : Byte) (out : List Byte),
      writeU8 buf off v = .ok out → 0 ≤ off ∧ off < (buf.length : Int)) := by
  have hwb : width < 536870912 := by nlinarith
  have hhb : height < 536870912 := by nlinarith
  refine ⟨?_, readU8_inBounds, writeU8_inBounds⟩
  obtain ⟨gray, out, hg, hgl, hb, -, hp⟩ := process_spec garbage input output width height
    blurRadius hw hh hin hout (by omega) (by omega) (by omega) (by omega) (by omega)
  refine ⟨gray, out, hg, hgl, length_allocBytes garbage input.length, hb, hp, ?_⟩
  intro x y hx0 hx hy0 hy
  obtain ⟨acc, h1, -, h3⟩ := blurKernel_count gray width height blurRadius x y (by omega)
    (by rw [hgl]; exact hin) (by omega) (by omega) hx0 hx (by omega) hy0 hy (by omega)
  exact ⟨acc, h1, h3⟩

theorem process_no_fault_witness :
    (∃ gray out, toGrayscale [255, 0, 0, 128, 0, 255, 0, 255]
        (allocBytes (fun _ => 7) [255, 0, 0, 128, 0, 255, 0, 255].length) 2 1 = .ok gray ∧
      gray.length = [255, 0, 0, 128, 0, 255, 0, 255].length ∧
      (allocBytes (fun _ => 7) [255, 0, 0, 128, 0, 255, 0, 255].length).length =
        [255, 0, 0, 128, 0, 255, 0, 255].length ∧
      applyBlur gray [9, 9, 9, 9, 9, 9, 9, 9] 2 1 50 = .ok out ∧
      process (fun _ => 7) [255, 0, 0, 128, 0, 255, 0, 255] [9, 9, 9, 9, 9, 9, 9, 9] 2 1 50 =
        .ok out ∧
      ∀ x y : Int, 0 ≤ x → x < 2 → 0 ≤ y → y < 1 →
        ∃ acc, blurKernel gray 2 1 50 x y = .ok acc ∧ 1 ≤ acc.count) ∧
    (∀ (buf : List Byte) (off : Int) (v : Byte), readU8 buf off = .ok v →
      0 ≤ off ∧ off < (buf.length : Int)) ∧
    (∀ (buf : List Byte) (off : Int) (v : Byte) (out : List Byte),
      writeU8 buf off v = .ok out → 0 ≤ off ∧ off < (buf.length : Int)) :=
  process_no_fault (fun _ => 7) [255, 0, 0, 128, 0, 255, 0, 255] [9, 9, 9, 9, 9, 9, 9, 9] 2 1 50
    (by decide) (by decide) (by decide) (by decide) (by decide) (by decide) (by decide)

/-! ## Validation by the host entry point -/

/-- What the validation of `ProcessImage` does guarantee when the core is invoked: positive
dimensions, a radius in `[1, 50]`, and a buffer whose length is the product
`width * height * 4` as computed in `int` arithmetic and converted to `size_t`. -/
theorem ProcessImage_validated (c : HostCall) (k : CoreCall)
    (h : (ProcessImage c).coreCall = some k) :
    0 < k.width ∧ 0 < k.height ∧ 1 ≤ k.blurRadius ∧ k.blurRadius ≤ 50 ∧
      k.input.length = toSizeT (mul32 (mul32 k.width k.height) 4) ∧
      k.outputLen = k.input.length := by
  obtain ⟨cbOk, argc, buffer, width, height, blurRadius, og, tg, rok, le⟩ := c
  unfold ProcessImage at h
  simp only [rejected] at h
  cases cbOk
  · cases h
  · rw [if_neg (by decide)] at h
    by_cases h0 : argc < 3
    · rw [if_pos h0] at h; cases h
    · rw [if_neg h0] at h
      cases buffer with
      | none => cases h
      | some inputData =>
        cases width with
        | none => cases h
        | some w =>
          cases height with
          | none => cases h
          | some ht =>
            simp only at h
            generalize hrad : (if argc ≥ 4 then blurRadius else some 5) = rad at h
            cases rad with
            | none => cases h
            | some r =>
              simp only at h
              by_cases h1 : inputData.length ≠ toSizeT (mul32 (mul32 w ht) 4)
              · rw [if_pos h1] at h; cases h
              · rw [if_neg h1] at h
                by_cases h2 : w ≤ 0 ∨ ht ≤ 0
                · rw [if_pos h2] at h; cases h
                · rw [if_neg h2] at h
                  by_cases h3 : r < 1 ∨ r > 50
                  · rw [if_pos h3] at h; cases h
                  · rw [if_neg h3] at h
                    cases og with
                    | none => cases h
                    | some g =>
                      simp only at h
                      have hk : k = ⟨inputData, inputData.length, w, ht, r⟩ := by
                        cases hp : process tg inputData (allocBytes g inputData.length) w ht r with
                        | error f =>
                          rw [hp] at h
                          exact (Option.some.inj h).symm
                        | ok data =>
                          rw [hp] at h
                          simp only at h
                          by_cases h4 : rok = true
                          · rw [if_pos h4] at h; exact (Option.some.inj h).symm
                          · rw [if_neg h4] at h; exact (Option.some.inj h).symm
                      subst hk
                      simp only
                      exact ⟨by omega, by omega, by omega, by omega, not_not.1 h1, trivial⟩

/-- C5, evaluated on the code: `processImage(Buffer.alloc(0), 65536, 16384, 1)` passes the
validation of `ProcessImage`, because `width * height * 4 = 2^32` wraps to 0 in `int`
arithmetic and the empty buffer has 0 bytes; `process` is then invoked on a buffer whose length
is not `width * height * 4`, and it reads out of bounds. -/
theorem ProcessImage_size_check_overflow :
    (ProcessImage ⟨true, 4, some [], some 65536, some 16384, some 1, some (fun _ => 0),
        fun _ => 0, true, none⟩).coreCall = some ⟨[], 0, 65536, 16384, 1⟩ ∧
      ((([] : List Byte).length : Int) ≠ 65536 * 16384 * 4) ∧
      (ProcessImage ⟨true, 4, some [], some 65536, some 16384, some 1, some (fun _ => 0),
        fun _ => 0, true, none⟩).outcome = .crashed .outOfBounds := by
  decide

/-- C6: every call of `ProcessImage` whose blurRadius argument is outside `[1, 50]` (in
particular 0 and 51), whatever the buffer, the width and the height, is rejected with an
error; `ImageProcessor::process` is not invoked and no output buffer is created. -/
theorem ProcessImage_rejects_radius (c : HostCall) (r : Int)
    (hargc : 4 ≤ c.argc) (hrad : c.blurRadius = some r) (hr : r < 1 ∨ 50 < r) :
    ∃ msg, ProcessImage c = ⟨none, none, .threw msg⟩ := by
  obtain ⟨cbOk, argc, buffer, width, height, blurRadius, og, tg, rok, le⟩ := c
  simp only at hargc hrad
  subst hrad
  unfold ProcessImage
  simp only [rejected]
  cases cbOk
  · exact ⟨_, rfl⟩
  · rw [if_neg (by decide), if_neg (by omega)]
    cases buffer with
    | none => exact ⟨_, rfl⟩
    | some inputData =>
      cases width with
      | none => exact ⟨_, rfl⟩
      | some w =>
        cases height with
        | none => exact ⟨_, rfl⟩
        | some h =>
          simp only [if_pos hargc]
          split_ifs with h1 h2
          · exact ⟨_, rfl⟩
          · exact ⟨_, rfl⟩
          · exact ⟨_, rfl⟩

theorem ProcessImage_rejects_radius_witness :
    (∃ msg, ProcessImage ⟨true, 4, some [1, 2, 3, 4], some 1, some 1, some 0,
        some (fun _ => 0), fun _ => 0, true, none⟩ = ⟨none, none, .threw msg⟩) ∧
    (∃ msg, ProcessImage ⟨true, 4, some [1, 2, 3, 4], some 1, some 1, some 51,
        some (fun _ => 0), fun _ => 0, true, none⟩ = ⟨none, none, .threw msg⟩) :=
  ⟨ProcessImage_rejects_radius ⟨true, 4, some [1, 2, 3, 4], some 1, some 1, some 0,
      some (fun _ => 0), fun _ => 0, true, none⟩ 0 (by decide) rfl (by decide),
    ProcessImage_rejects_radius ⟨true, 4, some [1, 2, 3, 4], some 1, some 1, some 51,
      some (fun _ => 0), fun _ => 0, true, none⟩ 51 (by decide) rfl (by decide)⟩

/-! ## Images beyond the range of `int` -/

theorem length_solidImage (R G B A : Byte) (n : Nat) :
    (solidImage R G B A n).length = 4 * n := by
  induction n with
  | zero => rfl
  | succ k ih =>
    simp only [solidImage, List.length_cons, ih]
    omega

theorem isUniform_solidImage (R G B A : Byte) (n : Nat) :
    IsUniform (solidImage R G B A n) R G B A := by
  induction n with
  | zero =>
    intro i hi
    simp only [solidImage, List.length_nil] at hi
    omega
  | succ k ih =>
    intro i hi
    cases i with
    | zero => exact ⟨rfl, rfl, rfl, rfl⟩
    | succ j =>
      rw [length_solidImage] at hi
      have hj := ih j (by rw [length_solidImage]; omega)
      have e0 : 4 * (j + 1) = 4 * j + 4 := by omega
      have e1 : 4 * j + 4 + 1 = 4 * j + 1 + 4 := by omega
      have e2 : 4 * j + 4 + 2 = 4 * j + 2 + 4 := by omega
      have e3 : 4 * j + 4 + 3 = 4 * j + 3 + 4 := by omega
      rw [e0, e1, e2, e3]
      exact hj

/-- When `width * height` is `2^31`, `process` allocates an empty temporary buffer, the grayscale
pass does nothing and the blur reads the first byte of the empty buffer. -/
theorem process_faults_wrapped (garbage : Nat → Byte) (input output : List Byte) :
    process garbage input output 65536 32768 1 = .error .outOfBounds := rfl

/-! ## Grayscale examples -/

/-- C10 (amended): for every valid image whose byte count `width * height * 4` is representable
as an `int` and every pixel index `i < width * height`, `toGrayscale` maps a pixel
`(255, 0, 0, 128)` to `(76, 76, 76, 128)` and a pixel `(0, 255, 0, 255)` to
`(149, 149, 149, 255)`; and for every `R, G, B` the output alpha of a pixel with input alpha 128
is 128. -/
theorem toGrayscale_examples (input output : List Byte) (width height : Int)
    (hw : 0 < width) (hh : 0 < height)
    (hin : (input.length : Int) = width * height * 4) (hout : output.length = input.length)
    (hfit : width * height * 4 < 2147483648) :
    GrayExamplesContract input output width height := by
  obtain ⟨out, hrun, -, hP⟩ := toGrayscale_spec input output width height hw hh hfit hin hout
  refine ⟨out, hrun, ?_⟩
  intro i hi
  refine ⟨?_, ?_, ?_⟩
  · rintro ⟨h0, h1, h2, h3⟩
    have e : toU8 (luminance 255 0 0) = 76 := by decide
    have h := hP i 255 0 0 128 hi h0 h1 h2 h3
    rw [e] at h
    exact h
  · rintro ⟨h0, h1, h2, h3⟩
    have e : toU8 (luminance 0 255 0) = 149 := by decide
    have h := hP i 0 255 0 255 hi h0 h1 h2 h3
    rw [e] at h
    exact h
  · intro h3
    obtain ⟨R, hR⟩ := getq_some_of_lt input (4 * i) (by omega)
    obtain ⟨G, hG⟩ := getq_some_of_lt input (4 * i + 1) (by omega)
    obtain ⟨B, hB⟩ := getq_some_of_lt input (4 * i + 2) (by omega)
    exact (hP i R G B 128 hi hR hG hB h3).2.2.2

theorem toGrayscale_examples_witness :
    GrayExamplesContract [7, 7, 7, 128, 255, 0, 0, 128, 0, 255, 0, 255]
      [9, 9, 9, 9, 9, 9, 9, 9, 9, 9, 9, 9] 3 1 :=
  toGrayscale_examples [7, 7, 7, 128, 255, 0, 0, 128, 0, 255, 0, 255]
    [9, 9, 9, 9, 9, 9, 9, 9, 9, 9, 9, 9] 3 1 (by decide) (by decide) (by decide) (by decide)
    (by decide)

/-- C10 as stated fails: in the 65536 x 32768 image `width * height = 2^31` is not an `int`,
`pixels` wraps to a negative number and the loop body never runs, so the pixel
`(255, 0, 0, 128)` at index 0 is not mapped to `(76, 76, 76, 128)`: the output buffer keeps the
bytes `(9, 9, 9, 9)` that it held before. -/
theorem toGrayscale_examples_counterexample :
    (0 : Int) < 65536 ∧ (0 : Int) < 32768 ∧
    ((solidImage 255 0 0 128 2147483648).length : Int) = 65536 * 32768 * 4 ∧
    (List.replicate 8589934592 (9 : Byte)).length = (solidImage 255 0 0 128 2147483648).length ∧
    toGrayscale (solidImage 255 0 0 128 2147483648) (List.replicate 8589934592 9) 65536 32768 =
      .ok (List.replicate 8589934592 9) ∧
    ¬ GrayExamplesContract (solidImage 255 0 0 128 2147483648) (List.replicate 8589934592 9)
      65536 32768 := by
  have hsame : toGrayscale (solidImage 255 0 0 128 2147483648) (List.replicate 8589934592 9)
      65536 32768 = .ok (List.replicate 8589934592 9) := rfl
  refine ⟨by decide, by decide, by rw [length_solidImage]; rfl,
    by rw [List.length_replicate, length_solidImage], hsame, ?_⟩
  rintro ⟨out, hrun, hP⟩
  rw [hsame] at hrun
  cases hrun
  have h := ((hP 0 (by decide)).1 ⟨rfl, rfl, rfl, rfl⟩).1
  have h1 : (List.replicate 8589934592 (9 : Byte)).get? (4 * 0) = some 9 := rfl
  rw [h1] at h
  revert h
  decide

/-! ## Range of the luminance -/

/-- C13: for every `R, G, B` in `[0, 255]`, `(77 * R + 150 * G + 29 * B) >> 8` is at most 255
(and not negative), so the `static_cast` to `uint8_t` in `toGrayscale` does not change the
value: no wrap-around, no clamping. -/
theorem luminance_fits_u8 (R G B : Byte) :
    luminance R G B = (77 * (R.val : Int) + 150 * G.val + 29 * B.val) / 256 ∧
    0 ≤ luminance R G B ∧ luminance R G B ≤ 255 ∧
    ((toU8 (luminance R G B)).val : Int) = luminance R G B := by
  have hr := R.isLt
  have hg := G.isLt
  have hb := B.isLt
  have h := luminance_eq R G B
  refine ⟨h, by rw [h]; omega, by rw [h]; omega, ?_⟩
  rw [h]
  simp only [toU8]
  omega

/-! ## Gray images are fixed by the grayscale conversion -/

/-- The weights sum to 256: the luminance of a gray pixel is its gray value. -/
theorem toU8_luminance_gray (L : Byte) : toU8 (luminance L L L) = L := by
  have hl := L.isLt
  apply Fin.ext
  rw [toU8_luminance_val]
  omega

/-- An image whose pixels are all gray is returned as it is by `toGrayscale`. -/
theorem toGrayscale_fixed (input output : List Byte) (width height : Int)
    (hw : 0 < width) (hh : 0 < height)
    (hfit : width * height * 4 < 2147483648)
    (hin : (input.length : Int) = width * height * 4) (hout : output.length = input.length)
    (hgray : ∀ i : Nat, (i : Int) < width * height →
      input.get? (4 * i + 1) = input.get? (4 * i) ∧
      input.get? (4 * i + 2) = input.get? (4 * i)) :
    toGrayscale input output width height = .ok input := by
  obtain ⟨out, hrun, hlen, hP⟩ := toGrayscale_spec input output width height hw hh hfit hin hout
  rw [hrun]
  congr 1
  obtain ⟨n, hn⟩ : ∃ n : Nat, (n : Int) = width * height :=
    ⟨(width * height).toNat, Int.toNat_of_nonneg (by nlinarith)⟩
  apply list_eq_of_pixels out input n (by omega) (by omega)
  intro p hp c hc
  obtain ⟨R, hR⟩ := getq_some_of_lt input (4 * p) (by omega)
  obtain ⟨A, hA⟩ := getq_some_of_lt input (4 * p + 3) (by omega)
  obtain ⟨g1, g2⟩ := hgray p (by omega)
  rw [hR] at g1 g2
  obtain ⟨a0, a1, a2, a3⟩ := hP p R R R A (by omega) hR g1 g2 hA
  rw [toU8_luminance_gray] at a0 a1 a2
  match c with
  | 0 => rw [add_zero, a0, hR]
  | 1 => rw [a1, g1]
  | 2 => rw [a2, g2]
  | 3 => rw [a3, hA]
  | k + 4 => omega

/-- C17 (amended): `toGrayscale` is idempotent: for every valid image (width > 0, height > 0,
len(input) = width * height * 4 representable as an `int`),
toGrayscale(toGrayscale(input)) = toGrayscale(input), whatever the output buffers held before,
because the weights sum to 256 and a pixel `(L, L, L, A)` maps to `(L, L, L, A)`. -/
theorem toGrayscale_idempotent (input o1 o2 : List Byte) (width height : Int)
    (hw : 0 < width) (hh : 0 < height)
    (hin : (input.length : Int) = width * height * 4)
    (hfit : width * height * 4 < 2147483648)
    (h1 : o1.length = input.length) (h2 : o2.length = input.length) :
    (∃ gray, toGrayscale input o1 width height = .ok gray ∧
      toGrayscale gray o2 width height = .ok gray) ∧
    ∀ L : Byte, toU8 (luminance L L L) = L ∧ luminance L L L = (256 * (L.val : Int)) / 256 := by
  refine ⟨?_, ?_⟩
  · obtain ⟨gray, hrun, hlen, hP⟩ := toGrayscale_spec input o1 width height hw hh hfit hin h1
    refine ⟨gray, hrun, ?_⟩
    apply toGrayscale_fixed gray o2 width height hw hh hfit (by rw [hlen]; exact hin)
      (by rw [hlen]; exact h2)
    intro i hi
    obtain ⟨n, hn⟩ : ∃ n : Nat, (n : Int) = width * height :=
      ⟨(width * height).toNat, Int.toNat_of_nonneg (by nlinarith)⟩
    obtain ⟨R, hR⟩ := getq_some_of_lt input (4 * i) (by omega)
    obtain ⟨G, hG⟩ := getq_some_of_lt input (4 * i + 1) (by omega)
    obtain ⟨B, hB⟩ := getq_some_of_lt input (4 * i + 2) (by omega)
    obtain ⟨A, hA⟩ := getq_some_of_lt input (4 * i + 3) (by omega)
    obtain ⟨a0, a1, a2, -⟩ := hP i R G B A hi hR hG hB hA
    rw [a0, a1, a2]
    exact ⟨rfl, rfl⟩
  · intro L
    refine ⟨toU8_luminance_gray L, ?_⟩
    rw [luminance_eq]
    congr 1
    ring

theorem toGrayscale_idempotent_witness :
    (∃ gray, toGrayscale [255, 0, 0, 128, 0, 255, 0, 255] [9, 9, 9, 9, 9, 9, 9, 9] 2 1 =
        .ok gray ∧
      toGrayscale gray [7, 7, 7, 7, 7, 7, 7, 7] 2 1 = .ok gray) ∧
    ∀ L : Byte, toU8 (luminance L L L) = L ∧ luminance L L L = (256 * (L.val : Int)) / 256 :=
  toGrayscale_idempotent [255, 0, 0, 128, 0, 255, 0, 255] [9, 9, 9, 9, 9, 9, 9, 9]
    [7, 7, 7, 7, 7, 7, 7, 7] 2 1 (by decide) (by decide) (by decide) (by decide) (by decide)
    (by decide)

/-- C17 as stated fails: in the 65536 x 32768 image `width * height = 2^31` is not an `int`,
`pixels` wraps to a negative number and `toGrayscale` leaves its output buffer as it was; the
second pass therefore returns what its own output buffer held, not the result of the first. -/
theorem toGrayscale_idempotent_counterexample :
    (0 : Int) < 65536 ∧ (0 : Int) < 32768 ∧
    ((List.replicate 8589934592 (5 : Byte)).length : Int) = 65536 * 32768 * 4 ∧
    (List.replicate 8589934592 (0 : Byte)).length =
      (List.replicate 8589934592 (5 : Byte)).length ∧
    (List.replicate 8589934592 (1 : Byte)).length =
      (List.replicate 8589934592 (5 : Byte)).length ∧
    ¬ ∃ gray, toGrayscale (List.replicate 8589934592 5) (List.replicate 8589934592 0)
        65536 32768 = .ok gray ∧
      toGrayscale gray (List.replicate 8589934592 1) 65536 32768 = .ok gray := by
  refine ⟨by decide, by decide, by rw [List.length_replicate]; rfl,
    by rw [List.length_replicate, List.length_replicate],
    by rw [List.length_replicate, List.length_replicate], ?_⟩
  rintro ⟨gray, h1, h2⟩
  have e1 : toGrayscale (List.replicate 8589934592 5) (List.replicate 8589934592 0)
      65536 32768 = .ok (List.replicate 8589934592 0) := rfl
  rw [e1] at h1
  cases h1
  have e2 : toGrayscale (List.replicate 8589934592 0) (List.replicate 8589934592 1)
      65536 32768 = .ok (List.replicate 8589934592 1) := rfl
  rw [e2] at h2
  have h3 := congrArg (fun l => l.get? 0) (Except.ok.inj h2)
  exact absurd h3 (by decide)

/-! ## The pipeline on particular images -/

/-- The pipeline returns a uniform gray image `(L, L, L, A)` as it is. -/
theorem process_uniform_gray (garbage : Nat → Byte) (input output : List Byte)
    (width height blurRadius : Int) (L A : Byte)
    (hw : 0 < width) (hh : 0 < height)
    (hr1 : 1 ≤ blurRadius) (hr : blurRadius ≤ 50)
    (hin : (input.length : Int) = width * height * 4) (hout : output.length = input.length)
    (hfit : width * height * 4 < 2147483648)
    (hunif : IsUniform input L L L A) :
    process garbage input output width height blurRadius = .ok input := by
  have hwb : width < 536870912 := by nlinarith
  have hhb : height < 536870912 := by nlinarith
  obtain ⟨gray, out, hg, hgl, hb, -, hp⟩ := process_spec garbage input output width height
    blurRadius hw hh hin hout hfit (by omega) (by omega) (by omega) (by omega)
  have hfix : toGrayscale input (allocBytes garbage input.length) width height = .ok input := by
    apply toGrayscale_fixed input _ width height hw hh hfit hin (length_allocBytes garbage _)
    intro i hi
    obtain ⟨u0, u1, u2, -⟩ := hunif i (by omega)
    rw [u0, u1, u2]
    exact ⟨rfl, rfl⟩
  rw [hg] at hfix
  cases hfix
  have hblur : applyBlur input output width height blurRadius = .ok input := by
    apply applyBlur_uniform input output width height blurRadius L L L A hw hh hfit hin hout
      (by omega) (by omega) (by omega) (by omega) ?_ hunif
    intro x y
    have h1 := windowCount_le_kernel width height blurRadius x y (by omega)
    have hk : (2 * blurRadius + 1) * (2 * blurRadius + 1) ≤ 101 * 101 :=
      mul_le_mul (by omega) (by omega) (by omega) (by omega)
    omega
  rw [hb] at hblur
  cases hblur
  exact hp

theorem isUniform_black4 :
    IsUniform [0, 0, 0, 255, 0, 0, 0, 255, 0, 0, 0, 255, 0, 0, 0, 255] 0 0 0 255 := by
  intro i hi
  have hi2 : i < 4 := by
    simp only [List.length_cons, List.length_nil] at hi
    omega
  interval_cases i <;> exact ⟨rfl, rfl, rfl, rfl⟩

/-- C11 (amended): for every all-black opaque image (every pixel `(0, 0, 0, 255)`) of any valid dimensions
(width > 0, height > 0, len(input) = len(output) = width * height * 4 representable as an `int`)
and any blurRadius in `[1, 50]`, `process` returns the image unchanged; in particular the 2 x 2
image with radius 1 yields a 16-byte output equal to `(0, 0, 0, 255)` repeated 4 times. -/
theorem process_black_unchanged (garbage : Nat → Byte) (input output : List Byte)
    (width height blurRadius : Int)
    (hw : 0 < width) (hh : 0 < height)
    (hr1 : 1 ≤ blurRadius) (hr : blurRadius ≤ 50)
    (hin : (input.length : Int) = width * height * 4) (hout : output.length = input.length)
    (hfit : width * height * 4 < 2147483648)
    (hblack : IsUniform input 0 0 0 255) :
    process garbage input output width height blurRadius = .ok input ∧
    ∀ (g : Nat → Byte) (o : List Byte), o.length = 16 →
      ∃ out, process g [0, 0, 0, 255, 0, 0, 0, 255, 0, 0, 0, 255, 0, 0, 0, 255] o 2 2 1 =
          .ok out ∧ out.length = 16 ∧
        out = [0, 0, 0, 255, 0, 0, 0, 255, 0, 0, 0, 255, 0, 0, 0, 255] := by
  refine ⟨process_uniform_gray garbage input output width height blurRadius 0 255 hw hh hr1 hr
    hin hout hfit hblack, ?_⟩
  intro g o ho
  exact ⟨_, process_uniform_gray g [0, 0, 0, 255, 0, 0, 0, 255, 0, 0, 0, 255, 0, 0, 0, 255] o
    2 2 1 0 255 (by decide) (by decide) (by decide) (by decide) (by decide) ho (by decide)
    isUniform_black4, rfl, rfl⟩

theorem process_black_unchanged_witness :
    process (fun _ => 7) [0, 0, 0, 255, 0, 0, 0, 255, 0, 0, 0, 255, 0, 0, 0, 255]
        [9, 9, 9, 9, 9, 9, 9, 9, 9, 9, 9, 9, 9, 9, 9, 9] 2 2 1 =
      .ok [0, 0, 0, 255, 0, 0, 0, 255, 0, 0, 0, 255, 0, 0, 0, 255] ∧
    ∀ (g : Nat → Byte) (o : List Byte), o.length = 16 →
      ∃ out, process g [0, 0, 0, 255, 0, 0, 0, 255, 0, 0, 0, 255, 0, 0, 0, 255] o 2 2 1 =
          .ok out ∧ out.length = 16 ∧
        out = [0, 0, 0, 255, 0, 0, 0, 255, 0, 0, 0, 255, 0, 0, 0, 255] :=
  process_black_unchanged (fun _ => 7) [0, 0, 0, 255, 0, 0, 0, 255, 0, 0, 0, 255, 0, 0, 0, 255]
    [9, 9, 9, 9, 9, 9, 9, 9, 9, 9, 9, 9, 9, 9, 9, 9] 2 2 1 (by decide) (by decide) (by decide)
    (by decide) (by decide) (by decide) (by decide) isUniform_black4

/-- C11 as stated fails: for the all-black opaque 65536 x 32768 image `width * height * 4`
wraps to 0, the temporary buffer of `process` is empty and the blur reads outside it; `process`
does not return the image. -/
theorem process_black_unchanged_counterexample :
    (0 : Int) < 65536 ∧ (0 : Int) < 32768 ∧ (1 : Int) ≤ 1 ∧ (1 : Int) ≤ 50 ∧
    ((solidImage 0 0 0 255 2147483648).length : Int) = 65536 * 32768 * 4 ∧
    (List.replicate 8589934592 (0 : Byte)).length = (solidImage 0 0 0 255 2147483648).length ∧
    IsUniform (solidImage 0 0 0 255 2147483648) 0 0 0 255 ∧
    process (fun _ => 0) (solidImage 0 0 0 255 2147483648) (List.replicate 8589934592 0)
      65536 32768 1 = .error .outOfBounds ∧
    process (fun _ => 0) (solidImage 0 0 0 255 2147483648) (List.replicate 8589934592 0)
      65536 32768 1 ≠ .ok (solidImage 0 0 0 255 2147483648) := by
  have hbad := process_faults_wrapped (fun _ => 0) (solidImage 0 0 0 255 2147483648)
    (List.replicate 8589934592 0)
  refine ⟨by decide, by decide, by decide, by decide, by rw [length_solidImage]; rfl,
    by rw [List.length_replicate, length_solidImage], isUniform_solidImage 0 0 0 255 _,
    hbad, ?_⟩
  rw [hbad]
  intro h
  cases h

/-- The result of the pipeline depends neither on the content of the fresh temporary buffer nor
on what the output buffer held before. -/
theorem process_indep (g1 g2 : Nat → Byte) (input o1 o2 : List Byte)
    (width height blurRadius : Int)
    (hw : 0 < width) (hh : 0 < height)
    (hr1 : 1 ≤ blurRadius) (hr : blurRadius ≤ 50)
    (hin : (input.length : Int) = width * height * 4)
    (h1 : o1.length = input.length) (h2 : o2.length = input.length)
    (hfit : width * height * 4 < 2147483648) :
    ∃ out, process g1 input o1 width height blurRadius = .ok out ∧
      process g2 input o2 width height blurRadius = .ok out ∧ out.length = input.length := by
  have hwb : width < 536870912 := by nlinarith
  have hhb : height < 536870912 := by nlinarith
  obtain ⟨gray1, out1, hg1, hgl1, hb1, hl1, hp1⟩ := process_spec g1 input o1 width height
    blurRadius hw hh hin h1 hfit (by omega) (by omega) (by omega) (by omega)
  obtain ⟨gray2, out2, hg2, -, hb2, -, hp2⟩ := process_spec g2 input o2 width height
    blurRadius hw hh hin h2 hfit (by omega) (by omega) (by omega) (by omega)
  obtain ⟨g, e1, e2, -⟩ := toGrayscale_indep input (allocBytes g1 input.length)
    (allocBytes g2 input.length) width height hw hh hfit hin (length_allocBytes g1 _)
    (length_allocBytes g2 _)
  rw [hg1] at e1
  cases e1
  rw [hg2] at e2
  cases e2
  obtain ⟨out, e1, e2, -⟩ := applyBlur_indep gray1 o1 o2 width height blurRadius hw hh hfit
    (by rw [hgl1]; exact hin) (by rw [hgl1]; exact h1) (by rw [hgl1]; exact h2)
    (by omega) (by omega) (by omega) (by omega)
  rw [hb1] at e1
  cases e1
  rw [hb2] at e2
  cases e2
  exact ⟨out1, hp1, hp2, hl1⟩

/-- C12: `process` is not idempotent. On the valid 3 x 1 image black, white, black with
blurRadius 1, one application gives the gray values 127, 85, 127 and a second application, fed
with that output and the same dimensions and radius, gives 106, 113, 106 - whatever the
temporary and output buffers held before. -/
theorem process_not_idempotent (g1 g2 : Nat → Byte) (o1 o2 : List Byte)
    (h1 : o1.length = 12) (h2 : o2.length = 12) :
    (([0, 0, 0, 255, 255, 255, 255, 255, 0, 0, 0, 255] : List Byte).length : Int) = 3 * 1 * 4 ∧
    ∃ out1 out2,
      process g1 [0, 0, 0, 255, 255, 255, 255, 255, 0, 0, 0, 255] o1 3 1 1 = .ok out1 ∧
      process g2 out1 o2 3 1 1 = .ok out2 ∧
      out1 = [127, 127, 127, 255, 85, 85, 85, 255, 127, 127, 127, 255] ∧
      out2 = [106, 106, 106, 255, 113, 113, 113, 255, 106, 106, 106, 255] ∧
      out2 ≠ out1 := by
  refine ⟨by decide, ?_⟩
  obtain ⟨out1, a1, a2, -⟩ := process_indep g1 (fun _ => 0)
    [0, 0, 0, 255, 255, 255, 255, 255, 0, 0, 0, 255] o1 [0, 0, 0, 0, 0, 0, 0, 0, 0, 0, 0, 0]
    3 1 1 (by decide) (by decide) (by decide) (by decide) (by decide) h1 (by decide) (by decide)
  have e1 : process (fun _ => 0) [0, 0, 0, 255, 255, 255, 255, 255, 0, 0, 0, 255]
      [0, 0, 0, 0, 0, 0, 0, 0, 0, 0, 0, 0] 3 1 1 =
      .ok [127, 127, 127, 255, 85, 85, 85, 255, 127, 127, 127, 255] := by decide
  rw [e1] at a2
  cases a2
  obtain ⟨out2, b1, b2, -⟩ := process_indep g2 (fun _ => 0)
    [127, 127, 127, 255, 85, 85, 85, 255, 127, 127, 127, 255] o2
    [0, 0, 0, 0, 0, 0, 0, 0, 0, 0, 0, 0]
    3 1 1 (by decide) (by decide) (by decide) (by decide) (by decide) h2 (by decide) (by decide)
  have e2 : process (fun _ => 0) [127, 127, 127, 255, 85, 85, 85, 255, 127, 127, 127, 255]
      [0, 0, 0, 0, 0, 0, 0, 0, 0, 0, 0, 0] 3 1 1 =
      .ok [106, 106, 106, 255, 113, 113, 113, 255, 106, 106, 106, 255] := by decide
  rw [e2] at b2
  cases b2
  exact ⟨_, _, a1, b1, rfl, rfl, by decide⟩

theorem process_not_idempotent_witness :
    (([0, 0, 0, 255, 255, 255, 255, 255, 0, 0, 0, 255] : List Byte).length : Int) = 3 * 1 * 4 ∧
    ∃ out1 out2,
      process (fun _ => 7) [0, 0, 0, 255, 255, 255, 255, 255, 0, 0, 0, 255]
        [9, 9, 9, 9, 9, 9, 9, 9, 9, 9, 9, 9] 3 1 1 = .ok out1 ∧
      process (fun _ => 5) out1 [3, 3, 3, 3, 3, 3, 3, 3, 3, 3, 3, 3] 3 1 1 = .ok out2 ∧
      out1 = [127, 127, 127, 255, 85, 85, 85, 255, 127, 127, 127, 255] ∧
      out2 = [106, 106, 106, 255, 113, 113, 113, 255, 106, 106, 106, 255] ∧
      out2 ≠ out1 :=
  process_not_idempotent (fun _ => 7) (fun _ => 5) [9, 9, 9, 9, 9, 9, 9, 9, 9, 9, 9, 9]
    [3, 3, 3, 3, 3, 3, 3, 3, 3, 3, 3, 3] (by decide) (by decide)

/-! ## Accumulators of the blur -/

theorem sampleTerm_nonneg (input : List Byte) (width height px py : Int) (c : Nat) :
    0 ≤ sampleTerm input width height px py c := by
  unfold sampleTerm
  split_ifs
  · exact channel_nonneg input width px py c
  · omega
  · omega

theorem sampleTerm_le (input : List Byte) (width height px py : Int) (c : Nat) :
    sampleTerm input width height px py c ≤ 255 := by
  unfold sampleTerm
  split_ifs
  · exact channel_le input width px py c
  · omega
  · omega

/-- C15 (amended): in `applyBlur` with radius in `[1, 50]`, on every valid image (width > 0, height > 0,
len(input) = width * height * 4 representable as an `int`) and for every pixel, the 32-bit
accumulators `r, g, b, a` and `count` do not overflow: whatever part of the kernel has been
added, the sum lies between 0 and `255 * (2 * radius + 1)^2 <= 255 * 10201 = 2601255 < 2^31`,
and at the end of the kernel the accumulators hold the exact integer sums of the window and
the exact count. -/
theorem blur_accumulators_exact (input : List Byte) (width height radius x y : Int)
    (hw : 0 < width) (hh : 0 < height)
    (hin : (input.length : Int) = width * height * 4)
    (hfit : width * height * 4 < 2147483648)
    (hr1 : 1 ≤ radius) (hr : radius ≤ 50)
    (hx0 : 0 ≤ x) (hx : x < width) (hy0 : 0 ≤ y) (hy : y < height) :
    (∃ acc, blurKernel input width height radius x y = .ok acc ∧
      acc.r = windowSum input width height radius x y 0 ∧
      acc.g = windowSum input width height radius x y 1 ∧
      acc.b = windowSum input width height radius x y 2 ∧
      acc.a = windowSum input width height radius x y 3 ∧
      acc.count = windowCount width height radius x y) ∧
    (∀ (T : Finset (Nat × Nat)) (c : Nat),
      T ⊆ Finset.range (2 * radius + 1).toNat ×ˢ Finset.range (2 * radius + 1).toNat →
      0 ≤ ∑ q ∈ T, sampleTerm input width height (x + (-radius + (q.2 : Int)))
        (y + (-radius + (q.1 : Int))) c ∧
      ∑ q ∈ T, sampleTerm input width height (x + (-radius + (q.2 : Int)))
        (y + (-radius + (q.1 : Int))) c ≤ 255 * ((2 * radius + 1) * (2 * radius + 1))) ∧
    255 * ((2 * radius + 1) * (2 * radius + 1)) ≤ 255 * 10201 ∧
    (255 * 10201 : Int) = 2601255 ∧ (2601255 : Int) < 2 ^ 31 := by
  have hwb : width < 536870912 := by nlinarith
  have hhb : height < 536870912 := by nlinarith
  have hk : (2 * radius + 1) * (2 * radius + 1) ≤ 101 * 101 :=
    mul_le_mul (by omega) (by omega) (by omega) (by omega)
  refine ⟨?_, ?_, by omega, by norm_num, by norm_num⟩
  · obtain ⟨acc, hacc, hget⟩ := blurKernel_spec input width height radius x y hfit hin
      (by omega) (by omega) hx0 hx (by omega) hy0 hy (by omega)
    have hN1 := windowCount_pos width height radius x y (by omega) hx0 hx hy0 hy
    have hN2 := windowCount_le_kernel width height radius x y (by omega)
    have hsum : ∀ c, c < 4 → wrap32 (windowSum input width height radius x y c) =
        windowSum input width height radius x y c := by
      intro c _
      have h0 := windowSum_nonneg input width height radius x y c
      have h1 := windowSum_le input width height radius x y c
      exact wrap32_eq_self (by omega) (by omega)
    have g0 := hget 0
    have g1 := hget 1
    have g2 := hget 2
    have g3 := hget 3
    have g4 := hget 4
    rw [kernel_sum_channel input width height radius x y (by omega) 0 (by omega),
      hsum 0 (by omega)] at g0
    rw [kernel_sum_channel input width height radius x y (by omega) 1 (by omega),
      hsum 1 (by omega)] at g1
    rw [kernel_sum_channel input width height radius x y (by omega) 2 (by omega),
      hsum 2 (by omega)] at g2
    rw [kernel_sum_channel input width height radius x y (by omega) 3 (by omega),
      hsum 3 (by omega)] at g3
    rw [kernel_sum_count input width height radius x y (by omega) 4 (by omega),
      wrap32_eq_self (by omega) (by omega)] at g4
    exact ⟨acc, hacc, g0, g1, g2, g3, g4⟩
  · intro T c hT
    refine ⟨Finset.sum_nonneg (fun q _ => sampleTerm_nonneg input width height _ _ c), ?_⟩
    have h1 := Finset.sum_le_card_nsmul T
      (fun q => sampleTerm input width height (x + (-radius + (q.2 : Int)))
        (y + (-radius + (q.1 : Int))) c) 255
      (fun q _ => sampleTerm_le input width height _ _ c)
    rw [nsmul_eq_mul] at h1
    have h2 := Finset.card_le_card hT
    rw [Finset.card_product, Finset.card_range] at h2
    have h3 : (((2 * radius + 1).toNat * (2 * radius + 1).toNat : Nat) : Int) =
        (2 * radius + 1) * (2 * radius + 1) := by
      push_cast
      rw [Int.toNat_of_nonneg (by omega)]
    have h4 : (T.card : Int) ≤ (2 * radius + 1) * (2 * radius + 1) := by
      rw [← h3]
      exact_mod_cast h2
    linarith

theorem blur_accumulators_exact_witness :
    (∃ acc, blurKernel [255, 0, 0, 128, 0, 255, 0, 255] 2 1 50 0 0 = .ok acc ∧
      acc.r = windowSum [255, 0, 0, 128, 0, 255, 0, 255] 2 1 50 0 0 0 ∧
      acc.g = windowSum [255, 0, 0, 128, 0, 255, 0, 255] 2 1 50 0 0 1 ∧
      acc.b = windowSum [255, 0, 0, 128, 0, 255, 0, 255] 2 1 50 0 0 2 ∧
      acc.a = windowSum [255, 0, 0, 128, 0, 255, 0, 255] 2 1 50 0 0 3 ∧
      acc.count = windowCount 2 1 50 0 0) ∧
    (∀ (T : Finset (Nat × Nat)) (c : Nat),
      T ⊆ Finset.range (2 * (50 : Int) + 1).toNat ×ˢ Finset.range (2 * (50 : Int) + 1).toNat →
      0 ≤ ∑ q ∈ T, sampleTerm [255, 0, 0, 128, 0, 255, 0, 255] 2 1 (0 + (-50 + (q.2 : Int)))
        (0 + (-50 + (q.1 : Int))) c ∧
      ∑ q ∈ T, sampleTerm [255, 0, 0, 128, 0, 255, 0, 255] 2 1 (0 + (-50 + (q.2 : Int)))
        (0 + (-50 + (q.1 : Int))) c ≤ 255 * ((2 * 50 + 1) * (2 * 50 + 1))) ∧
    255 * ((2 * (50 : Int) + 1) * (2 * 50 + 1)) ≤ 255 * 10201 ∧
    (255 * 10201 : Int) = 2601255 ∧ (2601255 : Int) < 2 ^ 31 :=
  blur_accumulators_exact [255, 0, 0, 128, 0, 255, 0, 255] 2 1 50 0 0 (by decide) (by decide)
    (by decide) (by decide) (by decide) (by decide) (by decide) (by decide) (by decide)
    (by decide)

/-- C15 as stated fails: in the 536870912 x 3 image the byte offset of the pixel `(0, 1)`,
in the window of `(0, 0)` for radius 2, is `2^31`, which is not an `int`; the offset wraps to
a negative number, the read leaves the buffer and the kernel produces no sums. -/
theorem blur_accumulators_exact_counterexample :
    (0 : Int) ≤ 0 ∧ (0 : Int) < 536870912 ∧ (0 : Int) < 3 ∧ (1 : Int) ≤ 2 ∧ (2 : Int) ≤ 50 ∧
    ((List.replicate 6442450944 (200 : Byte)).length : Int) = 536870912 * 3 * 4 ∧
    blurKernel (List.replicate 6442450944 200) 536870912 3 2 0 0 = .error .outOfBounds ∧
    ¬ ∃ acc, blurKernel (List.replicate 6442450944 200) 536870912 3 2 0 0 = .ok acc ∧
      acc.r = windowSum (List.replicate 6442450944 200) 536870912 3 2 0 0 0 ∧
      acc.g = windowSum (List.replicate 6442450944 200) 536870912 3 2 0 0 1 ∧
      acc.b = windowSum (List.replicate 6442450944 200) 536870912 3 2 0 0 2 ∧
      acc.a = windowSum (List.replicate 6442450944 200) 536870912 3 2 0 0 3 ∧
      acc.count = windowCount 536870912 3 2 0 0 := by
  have hbad : blurKernel (List.replicate 6442450944 200) 536870912 3 2 0 0 =
      .error .outOfBounds := by decide
  refine ⟨by decide, by decide, by decide, by decide, by decide,
    by rw [List.length_replicate]; rfl,
    hbad, ?_⟩
  rintro ⟨acc, hacc, -⟩
  rw [hbad] at hacc
  cases hacc

/-! ## Gray and alpha through the pipeline -/

/-- Window sums over channels that agree on every pixel of the image agree. -/
theorem windowSum_congr (a b : List Byte) (width height radius x y : Int) (c d : Nat)
    (h : ∀ px py : Int, 0 ≤ px → px < width → 0 ≤ py → py < height →
      channel a width px py c = channel b width px py d) :
    windowSum a width height radius x y c = windowSum b width height radius x y d := by
  unfold windowSum
  apply Finset.sum_congr rfl
  intro p hp
  rw [mem_windowSet] at hp
  exact h p.1 p.2 hp.1.1 hp.1.2 hp.2.1.1 hp.2.1.2

/-- Channels stored in bytes that agree are equal. -/
theorem channel_eq_of_get (a : List Byte) (width height px py : Int) (c d : Nat)
    (hx0 : 0 ≤ px) (hx : px < width) (hy0 : 0 ≤ py) (hy : py < height)
    (h : ∀ i : Nat, (i : Int) < width * height → a.get? (4 * i + c) = a.get? (4 * i + d)) :
    channel a width px py c = channel a width px py d := by
  obtain ⟨b1, b2, b3⟩ := pixel_index_bounds width height px py hx0 hx hy0 hy
  obtain ⟨m, hm⟩ : ∃ m : Nat, (m : Int) = py * width + px :=
    ⟨(py * width + px).toNat, by omega⟩
  have e : ((py * width + px) * 4).toNat = 4 * m := by omega
  unfold channel
  rw [e, h m (by omega)]

/-- C18 (amended): for every valid input (width > 0, height > 0, len(input) = len(output) =
width * height * 4 representable as an `int`) and every blurRadius in `[1, 50]`, every pixel of
the output of `process` is gray: its R, G and B bytes are equal. -/
theorem process_output_gray (garbage : Nat → Byte) (input output : List Byte)
    (width height blurRadius : Int)
    (hw : 0 < width) (hh : 0 < height)
    (hr1 : 1 ≤ blurRadius) (hr : blurRadius ≤ 50)
    (hin : (input.length : Int) = width * height * 4) (hout : output.length = input.length)
    (hfit : width * height * 4 < 2147483648) :
    ∃ out, process garbage input output width height blurRadius = .ok out ∧
      ∀ i : Nat, (i : Int) < width * height →
        ∃ v : Byte, out.get? (4 * i) = some v ∧ out.get? (4 * i + 1) = some v ∧
          out.get? (4 * i + 2) = some v := by
  have hwb : width < 536870912 := by nlinarith
  have hhb : height < 536870912 := by nlinarith
  obtain ⟨gray, hg, hgl, hP⟩ := toGrayscale_spec input (allocBytes garbage input.length)
    width height hw hh hfit hin (length_allocBytes garbage input.length)
  obtain ⟨out, hb, hbl, hQ⟩ := applyBlur_run gray output width height blurRadius hw hh hfit
    (by rw [hgl]; exact hin) (by rw [hgl]; exact hout) (by omega) (by omega) (by omega)
    (by omega)
  have hp : process garbage input output width height blurRadius = .ok out := by
    unfold process
    dsimp only
    rw [bufferSize_eq width height input.length hw hh hfit hin, hg, ok_bind]
    exact hb
  have hgray : ∀ i : Nat, (i : Int) < width * height →
      gray.get? (4 * i + 1) = gray.get? (4 * i + 0) ∧
      gray.get? (4 * i + 2) = gray.get? (4 * i + 0) := by
    intro i hi
    obtain ⟨R, hR⟩ := getq_some_of_lt input (4 * i) (by omega)
    obtain ⟨G, hG⟩ := getq_some_of_lt input (4 * i + 1) (by omega)
    obtain ⟨B, hB⟩ := getq_some_of_lt input (4 * i + 2) (by omega)
    obtain ⟨A, hA⟩ := getq_some_of_lt input (4 * i + 3) (by omega)
    obtain ⟨a0, a1, a2, -⟩ := hP i R G B A hi hR hG hB hA
    rw [add_zero, a0, a1, a2]
    exact ⟨rfl, rfl⟩
  refine ⟨out, hp, ?_⟩
  intro i hi
  obtain ⟨x, y, hx0, hx, hy0, hy, hxy⟩ := exists_pixel_coords width height i hw hi
  have hidx : (y * width + x).toNat = i := by omega
  have q0 := hQ x y hx0 hx hy0 hy 0 (by omega)
  have q1 := hQ x y hx0 hx hy0 hy 1 (by omega)
  have q2 := hQ x y hx0 hx hy0 hy 2 (by omega)
  rw [hidx] at q0 q1 q2
  have e1 : blurByte gray width height blurRadius x y 1 =
      blurByte gray width height blurRadius x y 0 := by
    unfold blurByte
    rw [windowSum_congr gray gray width height blurRadius x y 1 0
      (fun px py h1 h2 h3 h4 => channel_eq_of_get gray width height px py 1 0 h1 h2 h3 h4
        (fun j hj => (hgray j hj).1))]
  have e2 : blurByte gray width height blurRadius x y 2 =
      blurByte gray width height blurRadius x y 0 := by
    unfold blurByte
    rw [windowSum_congr gray gray width height blurRadius x y 2 0
      (fun px py h1 h2 h3 h4 => channel_eq_of_get gray width height px py 2 0 h1 h2 h3 h4
        (fun j hj => (hgray j hj).2))]
  refine ⟨blurByte gray width height blurRadius x y 0, ?_, ?_, ?_⟩
  · have : 4 * i = i * 4 + 0 := by omega
    rw [this]; exact q0
  · have : 4 * i + 1 = i * 4 + 1 := by omega
    rw [this, q1, e1]
  · have : 4 * i + 2 = i * 4 + 2 := by omega
    rw [this, q2, e2]

theorem process_output_gray_witness :
    ∃ out, process (fun _ => 7) [255, 0, 0, 128, 0, 255, 0, 255] [9, 9, 9, 9, 9, 9, 9, 9]
        2 1 1 = .ok out ∧
      ∀ i : Nat, (i : Int) < 2 * 1 →
        ∃ v : Byte, out.get? (4 * i) = some v ∧ out.get? (4 * i + 1) = some v ∧
          out.get? (4 * i + 2) = some v :=
  process_output_gray (fun _ => 7) [255, 0, 0, 128, 0, 255, 0, 255] [9, 9, 9, 9, 9, 9, 9, 9]
    2 1 1 (by decide) (by decide) (by decide) (by decide) (by decide) (by decide) (by decide)

/-- C18 as stated fails: for a 65536 x 32768 image `width * height * 4` wraps to 0, the
temporary buffer of `process` is empty and the blur reads outside it; `process` produces no
output, gray or not. -/
theorem process_output_gray_counterexample :
    (0 : Int) < 65536 ∧ (0 : Int) < 32768 ∧ (1 : Int) ≤ 5 ∧ (5 : Int) ≤ 50 ∧
    ((List.replicate 8589934592 (200 : Byte)).length : Int) = 65536 * 32768 * 4 ∧
    (List.replicate 8589934592 (0 : Byte)).length =
      (List.replicate 8589934592 (200 : Byte)).length ∧
    process (fun _ => 0) (List.replicate 8589934592 200) (List.replicate 8589934592 0)
      65536 32768 5 = .error .outOfBounds ∧
    ¬ ∃ out, process (fun _ => 0) (List.replicate 8589934592 200) (List.replicate 8589934592 0)
        65536 32768 5 = .ok out ∧
      ∀ i : Nat, (i : Int) < 65536 * 32768 →
        ∃ v : Byte, out.get? (4 * i) = some v ∧ out.get? (4 * i + 1) = some v ∧
          out.get? (4 * i + 2) = some v := by
  have hbad : process (fun _ => 0) (List.replicate 8589934592 200)
      (List.replicate 8589934592 0) 65536 32768 5 = .error .outOfBounds := by decide
  refine ⟨by decide, by decide, by decide, by decide, by rw [List.length_replicate]; rfl,
    by rw [List.length_replicate, List.length_replicate], hbad, ?_⟩
  rintro ⟨out, hout, -⟩
  rw [hbad] at hout
  cases hout

/-- C19 (amended): for every valid input (width > 0, height > 0, len(input) = len(output) =
width * height * 4 representable as an `int`) whose alpha byte is the same value `A` in every
pixel and every blurRadius in `[1, 50]`, every pixel of the output of `process` has alpha
exactly `A`: grayscale copies alpha and the truncated mean of `count` copies of `A` is `A`. -/
theorem process_alpha_constant (garbage : Nat → Byte) (input output : List Byte)
    (width height blurRadius : Int) (A : Byte)
    (hw : 0 < width) (hh : 0 < height)
    (hr1 : 1 ≤ blurRadius) (hr : blurRadius ≤ 50)
    (hin : (input.length : Int) = width * height * 4) (hout : output.length = input.length)
    (hfit : width * height * 4 < 2147483648)
    (halpha : ∀ i : Nat, (i : Int) < width * height → input.get? (4 * i + 3) = some A) :
    ∃ out, process garbage input output width height blurRadius = .ok out ∧
      ∀ i : Nat, (i : Int) < width * height → out.get? (4 * i + 3) = some A := by
  have hwb : width < 536870912 := by nlinarith
  have hhb : height < 536870912 := by nlinarith
  obtain ⟨gray, hg, hgl, hP⟩ := toGrayscale_spec input (allocBytes garbage input.length)
    width height hw hh hfit hin (length_allocBytes garbage input.length)
  obtain ⟨out, hb, hbl, hQ⟩ := applyBlur_run gray output width height blurRadius hw hh hfit
    (by rw [hgl]; exact hin) (by rw [hgl]; exact hout) (by omega) (by omega) (by omega)
    (by omega)
  have hp : process garbage input output width height blurRadius = .ok out := by
    unfold process
    dsimp only
    rw [bufferSize_eq width height input.length hw hh hfit hin, hg, ok_bind]
    exact hb
  have hga : ∀ i : Nat, (i : Int) < width * height → gray.get? (4 * i + 3) = some A := by
    intro i hi
    obtain ⟨R, hR⟩ := getq_some_of_lt input (4 * i) (by omega)
    obtain ⟨G, hG⟩ := getq_some_of_lt input (4 * i + 1) (by omega)
    obtain ⟨B, hB⟩ := getq_some_of_lt input (4 * i + 2) (by omega)
    exact (hP i R G B A hi hR hG hB (halpha i hi)).2.2.2
  refine ⟨out, hp, ?_⟩
  intro i hi
  obtain ⟨x, y, hx0, hx, hy0, hy, hxy⟩ := exists_pixel_coords width height i hw hi
  have hidx : (y * width + x).toNat = i := by omega
  have q3 := hQ x y hx0 hx hy0 hy 3 (by omega)
  rw [hidx] at q3
  have hN1 := windowCount_pos width height blurRadius x y (by omega) hx0 hx hy0 hy
  have hN2 := windowCount_le_kernel width height blurRadius x y (by omega)
  have hk : (2 * blurRadius + 1) * (2 * blurRadius + 1) ≤ 101 * 101 :=
    mul_le_mul (by omega) (by omega) (by omega) (by omega)
  have hbyte : blurByte gray width height blurRadius x y 3 = A := by
    apply blurByte_uniform gray width height blurRadius x y 3 A hN1 (by omega)
    intro p hp
    rw [mem_windowSet] at hp
    obtain ⟨d1, d2, d3⟩ := pixel_index_bounds width height p.1 p.2 hp.1.1 hp.1.2 hp.2.1.1
      hp.2.1.2
    obtain ⟨m, hm⟩ : ∃ m : Nat, (m : Int) = p.2 * width + p.1 :=
      ⟨(p.2 * width + p.1).toNat, by omega⟩
    exact channel_eq gray width p.1 p.2 3 (4 * m) A (by omega) (hga m (by omega))
  have : 4 * i + 3 = i * 4 + 3 := by omega
  rw [this, q3, hbyte]

theorem process_alpha_constant_witness :
    ∃ out, process (fun _ => 7) [255, 0, 0, 255, 0, 255, 0, 255] [9, 9, 9, 9, 9, 9, 9, 9]
        2 1 1 = .ok out ∧
      ∀ i : Nat, (i : Int) < 2 * 1 → out.get? (4 * i + 3) = some 255 :=
  process_alpha_constant (fun _ => 7) [255, 0, 0, 255, 0, 255, 0, 255]
    [9, 9, 9, 9, 9, 9, 9, 9] 2 1 1 255 (by decide) (by decide) (by decide) (by decide)
    (by decide) (by decide) (by decide)
    (by
      intro i hi
      have hi2 : i < 2 := by omega
      interval_cases i <;> rfl)

/-- C19 as stated fails: for a fully opaque 65536 x 32768 image `width * height * 4` wraps to 0,
the temporary buffer of `process` is empty and the blur reads outside it; `process` produces
no output, so no output pixel has alpha 255. -/
theorem process_alpha_constant_counterexample :
    (0 : Int) < 65536 ∧ (0 : Int) < 32768 ∧ (1 : Int) ≤ 50 ∧ (50 : Int) ≤ 50 ∧
    ((List.replicate 8589934592 (255 : Byte)).length : Int) = 65536 * 32768 * 4 ∧
    (List.replicate 8589934592 (0 : Byte)).length =
      (List.replicate 8589934592 (255 : Byte)).length ∧
    (∀ i : Nat, (i : Int) < 65536 * 32768 →
      (List.replicate 8589934592 (255 : Byte)).get? (4 * i + 3) = some 255) ∧
    process (fun _ => 0) (List.replicate 8589934592 255) (List.replicate 8589934592 0)
      65536 32768 50 = .error .outOfBounds ∧
    ¬ ∃ out, process (fun _ => 0) (List.replicate 8589934592 255) (List.replicate 8589934592 0)
        65536 32768 50 = .ok out ∧
      ∀ i : Nat, (i : Int) < 65536 * 32768 → out.get? (4 * i + 3) = some 255 := by
  have hbad : process (fun _ => 0) (List.replicate 8589934592 255)
      (List.replicate 8589934592 0) 65536 32768 50 = .error .outOfBounds := by decide
  refine ⟨by decide, by decide, by decide, by decide, by rw [List.length_replicate]; rfl,
    by rw [List.length_replicate, List.length_replicate], ?_, hbad, ?_⟩
  · intro i hi
    rw [List.get?_eq_getElem?, List.getElem?_replicate, if_pos (by omega)]
  · rintro ⟨out, hout, -⟩
    rw [hbad] at hout
    cases hout

/-! ## The divisor of a pixel -/

/-- When the window sums fit in an `int`, the accumulators hold the exact sums and count. -/
theorem blurKernel_exact (input : List Byte) (width height radius x y : Int)
    (hfit : width * height * 4 < 2147483648)
    (hin : (input.length : Int) = width * height * 4)
    (hr0 : 0 ≤ radius) (hr : radius ≤ 2147483647)
    (hx0 : 0 ≤ x) (hx : x < width) (hwr : width + radius ≤ 2147483648)
    (hy0 : 0 ≤ y) (hy : y < height) (hhr : height + radius ≤ 2147483648)
    (hN : 255 * windowCount width height radius x y < 2147483648) :
    ∃ acc, blurKernel input width height radius x y = .ok acc ∧
      (∀ c, c < 4 → acc.get c = windowSum input width height radius x y c) ∧
      acc.count = windowCount width height radius x y := by
  obtain ⟨acc, hacc, hget⟩ := blurKernel_spec input width height radius x y hfit hin hr0 hr
    hx0 hx hwr hy0 hy hhr
  have hN1 := windowCount_pos width height radius x y hr0 hx0 hx hy0 hy
  refine ⟨acc, hacc, ?_, ?_⟩
  · intro c hc
    have h0 := windowSum_nonneg input width height radius x y c
    have h1 := windowSum_le input width height radius x y c
    rw [hget c, kernel_sum_channel input width height radius x y hr0 c hc]
    exact wrap32_eq_self (by omega) (by omega)
  · have h4 := hget 4
    rw [kernel_sum_count input width height radius x y hr0 4 (by omega),
      wrap32_eq_self (by omega) (by omega)] at h4
    exact h4

/-- The truncated mean of a window lies between any two bounds of the channel on the window. -/
theorem window_mean_between (input : List Byte) (width height radius x y : Int) (c : Nat)
    (lo hi : Int) (hN : 1 ≤ windowCount width height radius x y)
    (hb : ∀ p ∈ windowSet width height radius x y,
      lo ≤ channel input width p.1 p.2 c ∧ channel input width p.1 p.2 c ≤ hi) :
    lo ≤ windowSum input width height radius x y c / windowCount width height radius x y ∧
      windowSum input width height radius x y c / windowCount width height radius x y ≤ hi := by
  have h1 := Finset.card_nsmul_le_sum (windowSet width height radius x y)
    (fun p => channel input width p.1 p.2 c) lo (fun p hp => (hb p hp).1)
  have h2 := Finset.sum_le_card_nsmul (windowSet width height radius x y)
    (fun p => channel input width p.1 p.2 c) hi (fun p hp => (hb p hp).2)
  rw [nsmul_eq_mul] at h1 h2
  constructor
  · apply Int.le_ediv_of_mul_le (by omega)
    unfold windowSum windowCount
    linarith
  · apply Int.ediv_le_of_le_mul (by omega)
    unfold windowSum windowCount
    linarith

/-- C16 (amended): for every valid image (width > 0, height > 0, len(input) = len(output) =
width * height * 4 representable as an `int`), every radius with `1 <= radius <= 1450`, every
pixel `(x, y)` and channel `c`, the output value of `applyBlur` lies between the minimum and the
maximum of channel `c` over the in-bounds pixels of the window of `(x, y)`; in particular the
quotients `r/count, g/count, b/count, a/count` lie in `[0, 255]` and the `static_cast` to
`uint8_t` stores them without truncation. -/
theorem applyBlur_range (input output : List Byte) (width height radius : Int)
    (hw : 0 < width) (hh : 0 < height)
    (hin : (input.length : Int) = width * height * 4) (hout : output.length = input.length)
    (hfit : width * height * 4 < 2147483648)
    (hr1 : 1 ≤ radius) (hr : radius ≤ 1450) :
    BlurRangeContract input output width height radius := by
  have hwb : width < 536870912 := by nlinarith
  have hhb : height < 536870912 := by nlinarith
  obtain ⟨out, hrun, -, hQ⟩ := applyBlur_run input output width height radius hw hh hfit hin hout
    (by omega) (by omega) (by omega) (by omega)
  refine ⟨out, hrun, ?_⟩
  intro x y hx0 hx hy0 hy c hc
  have hN1 := windowCount_pos width height radius x y (by omega) hx0 hx hy0 hy
  have hN2 := windowCount_le_kernel width height radius x y (by omega)
  have hk : (2 * radius + 1) * (2 * radius + 1) ≤ 2901 * 2901 :=
    mul_le_mul (by omega) (by omega) (by omega) (by omega)
  obtain ⟨acc, hacc, hsum, hcount⟩ := blurKernel_exact input width height radius x y hfit hin
    (by omega) (by omega) hx0 hx (by omega) hy0 hy (by omega) (by omega)
  have h0 := windowSum_nonneg input width height radius x y c
  have h1 := windowSum_le input width height radius x y c
  have hq : Int.tdiv (windowSum input width height radius x y c)
      (windowCount width height radius x y) =
      windowSum input width height radius x y c / windowCount width height radius x y :=
    Int.tdiv_eq_ediv h0 (by omega)
  have hq0 : 0 ≤ windowSum input width height radius x y c /
      windowCount width height radius x y := Int.ediv_nonneg h0 (by omega)
  have hq1 : windowSum input width height radius x y c /
      windowCount width height radius x y < 256 := by
    apply Int.ediv_lt_of_lt_mul (by omega)
    linarith
  refine ⟨acc, hacc, ?_⟩
  rw [hsum c hc, hcount, hq]
  refine ⟨hq0, by omega, ?_, ?_⟩
  · unfold byteAt
    rw [hQ x y hx0 hx hy0 hy c hc, Option.map_some',
      blurByte_eq_mean input width height radius x y c hN1 (by omega), hq]
  · intro lo hi hb
    exact window_mean_between input width height radius x y c lo hi hN1 hb

theorem applyBlur_range_witness :
    BlurRangeContract [255, 0, 0, 128, 0, 255, 0, 255] [9, 9, 9, 9, 9, 9, 9, 9] 2 1 1 :=
  applyBlur_range [255, 0, 0, 128, 0, 255, 0, 255] [9, 9, 9, 9, 9, 9, 9, 9] 2 1 1
    (by decide) (by decide) (by decide) (by decide) (by decide) (by decide) (by decide)

/-- C16 as stated fails: on a white 2903 x 2903 image blurred with radius 1451 the window of the
centre pixel is the whole image, the green sum `255 * 2903^2 = 2148989295` exceeds `2^31 - 1`
and wraps to `-2145978001`, and the quotient `g / count` is `-254`: it is not in `[0, 255]`,
although every pixel of the window is 255. -/
theorem applyBlur_range_counterexample :
    (0 : Int) < 2903 ∧ (1 : Int) ≤ 1451 ∧
    ((List.replicate 33709636 (255 : Byte)).length : Int) = 2903 * 2903 * 4 ∧
    (List.replicate 33709636 (0 : Byte)).length =
      (List.replicate 33709636 (255 : Byte)).length ∧
    (∃ acc, blurKernel (List.replicate 33709636 255) 2903 2903 1451 1451 1451 = .ok acc ∧
      Int.tdiv acc.g acc.count = -254) ∧
    ¬ BlurRangeContract (List.replicate 33709636 255) (List.replicate 33709636 0)
      2903 2903 1451 := by
  have hlen : ((List.replicate 33709636 (255 : Byte)).length : Int) = 2903 * 2903 * 4 := by
    rw [List.length_replicate]; rfl
  obtain ⟨acc, hacc, hget⟩ := blurKernel_spec (List.replicate 33709636 255) 2903 2903 1451
    1451 1451 (by decide) hlen (by decide) (by decide) (by decide) (by decide) (by decide)
    (by decide) (by decide) (by decide)
  have hN : windowCount 2903 2903 1451 1451 1451 = 8427409 := by
    rw [windowCount_full 2903 2903 1451 1451 1451 (by decide) (by decide) (by decide)
      (by decide) (by decide) (by decide)]
    rfl
  have hS : windowSum (List.replicate 33709636 255) 2903 2903 1451 1451 1451 1 =
      8427409 * 255 := by
    rw [windowSum_replicate 33709636 255 2903 2903 1451 1451 1451 1 (by decide) (by decide),
      hN]
    rfl
  have hg : acc.g = -2145978001 := by
    have h1 := hget 1
    rw [kernel_sum_channel (List.replicate 33709636 255) 2903 2903 1451 1451 1451
      (by decide) 1 (by decide), hS] at h1
    rw [show acc.g = acc.get 1 from rfl, h1]
    decide
  have hc : acc.count = 8427409 := by
    have h4 := hget 4
    rw [kernel_sum_count (List.replicate 33709636 255) 2903 2903 1451 1451 1451
      (by decide) 4 (by decide), hN] at h4
    rw [show acc.count = acc.get 4 from rfl, h4]
    decide
  have hq : Int.tdiv acc.g acc.count = -254 := by
    rw [hg, hc]
    decide
  refine ⟨by decide, by decide, hlen, by rw [List.length_replicate, List.length_replicate],
    ⟨acc, hacc, hq⟩, ?_⟩
  rintro ⟨out, -, hP⟩
  obtain ⟨acc1, hacc1, hpos, -⟩ := hP 1451 1451 (by decide) (by decide) (by decide)
    (by decide) 1 (by decide)
  rw [hacc] at hacc1
  cases hacc1
  rw [show acc.get 1 = acc.g from rfl, hq] at hpos
  revert hpos
  decide
